import Mathlib

/-!
Shallow embedding of the hask runtime Hindley-Milner engine
(`hask/lang/hindley_milner.py`) and of the typeclass registry / call-time
wrapper (`hask/lang/type_system.py`).

The Python engine works on a mutable object graph: `TypeVariable` objects
carry an optional `instance` pointer and a tuple of typeclass constraints,
`TypeOperator` objects carry a `name` (a concrete constructor tag or itself a
`TypeVariable`) and a list of argument types.  `unify` mutates a
`TypeOperator` in place in the higher-kinded case, so operators (like
variables) are modelled as references into a store.  Every engine function is
given explicit fuel (the Python code can diverge, e.g. when unifying two
distinct operators whose names are type variables), and Python's
`raise TypeError` becomes an explicit error result.

Typeclass constraint tuples are built in Python as `tuple(set(xs))`, i.e.
they are semantically finite sets; they are modelled as `Finset String`.
-/

namespace HaskCore

/-- Concrete (non-variable) names of type operators: `"->"` for `Function`,
the tuple constructor for `Tuple`, `"[]"` for `ListType`, a Python
type/class for ordinary constructors, `None` for the unit type and the
`PyFunc` singleton. -/
inductive OpAtom : Type
  | arrow
  | tupleC
  | listC
  | con (s : String)
  | unitT
  | pyFunc
  deriving DecidableEq

/-- The `name` field of a `TypeOperator`: either a concrete constructor tag
or a `TypeVariable` (the higher-kinded placeholder case). -/
inductive TName : Type
  | atom (a : OpAtom)
  | tv (id : Nat)
  deriving DecidableEq

/-- Whether a `TypeOperator`'s name is a `TypeVariable`
(Python `isinstance(a.name, TypeVariable)`). -/
def TName.isVar : TName → Bool
  | .atom _ => false
  | .tv _ => true

/-- A reference to a type object: either a `TypeVariable` or a
`TypeOperator`, each identified by its index in the respective store. -/
inductive Ty : Type
  | tvar (id : Nat)
  | tyop (id : Nat)
  deriving DecidableEq

/-- The mutable fields of a `TypeVariable`: `instance` (None = unbound) and
the typeclass-constraint set. -/
structure VarInfo where
  inst : Option Ty
  constraints : Finset String
  deriving DecidableEq

/-- The mutable fields of a `TypeOperator`: its name and argument list. -/
structure OpInfo where
  name : TName
  args : List Ty
  deriving DecidableEq

/-- The unification-graph state: the stores of all allocated `TypeVariable`
and `TypeOperator` objects, indexed by their ids (Python's monotonic
allocation counter becomes the list length). -/
structure St where
  vars : List VarInfo
  ops : List OpInfo
  deriving DecidableEq

/-- Read a `TypeVariable`'s fields (ids out of range cannot arise from the
Python code, where references always point at live objects). -/
def St.var (s : St) (v : Nat) : VarInfo := s.vars.getD v ⟨none, ∅⟩

/-- Read a `TypeOperator`'s fields. -/
def St.op (s : St) (o : Nat) : OpInfo := s.ops.getD o ⟨.atom .arrow, []⟩

/-- Write `v.instance = t` (Python attribute assignment). -/
def St.setInst (s : St) (v : Nat) (t : Ty) : St :=
  { s with vars := s.vars.set v ⟨some t, (s.var v).constraints⟩ }

/-- Write `v.constraints = c`. -/
def St.setCons (s : St) (v : Nat) (c : Finset String) : St :=
  { s with vars := s.vars.set v ⟨(s.var v).inst, c⟩ }

/-- Overwrite the fields of operator `o` (the in-place mutation in
`unify`'s higher-kinded branch). -/
def St.setOp (s : St) (o : Nat) (info : OpInfo) : St :=
  { s with ops := s.ops.set o info }

/-- `TypeVariable(constraints)`: allocate a fresh unbound variable, returning
its id. -/
def St.newVar (s : St) (c : Finset String) : Nat × St :=
  (s.vars.length, { s with vars := s.vars ++ [⟨none, c⟩] })

/-- `TypeOperator(name, types)`: allocate a fresh operator, returning its id. -/
def St.newOp (s : St) (name : TName) (args : List Ty) : Nat × St :=
  (s.ops.length, { s with ops := s.ops ++ [⟨name, args⟩] })

/-- The `TypeError`s raised by the engine, by raise site. -/
inductive TErr : Type
  | recursiveUnification
  | typeMismatch
  | notUnified
  | undefinedSymbol (name : String)
  deriving DecidableEq

/-- Result of a fueled engine operation: out of fuel (the Python function
diverges or needs more steps), a raised `TypeError`, or a value. -/
inductive Res (α : Type) : Type
  | timeout
  | err (e : TErr)
  | ok (a : α)
  deriving DecidableEq

/-- `prune(t)`: follow the `instance` chain of a bound variable, path-compress
each visited variable to the final result, and return that result; operators
and unbound variables are returned unchanged. -/
def prune : Nat → St → Ty → Res (Ty × St)
  | 0, _, _ => .timeout
  | n + 1, s, .tvar v =>
    match (s.var v).inst with
    | none => .ok (.tvar v, s)
    | some t =>
      match prune n s t with
      | .timeout => .timeout
      | .err e => .err e
      | .ok (r, s') => .ok (r, s'.setInst v r)
  | _ + 1, s, .tyop o => .ok (.tyop o, s)

mutual

/-- `occursInType(v, type2)`: prune `type2`; report whether the pruned result
is the variable `v` itself, or (for an operator) whether `v` occurs in any
argument. -/
def occursInType : Nat → St → Nat → Ty → Res (Bool × St)
  | 0, _, _, _ => .timeout
  | n + 1, s, v, t =>
    match prune n s t with
    | .timeout => .timeout
    | .err e => .err e
    | .ok (p, s1) =>
      match p with
      | .tvar w => .ok (decide (w = v), s1)
      | .tyop o => occursIn n s1 v (s1.op o).args

/-- `occursIn(t, types)`: `any(occursInType(t, t2) for t2 in types)` with
Python's short-circuit evaluation order. -/
def occursIn : Nat → St → Nat → List Ty → Res (Bool × St)
  | 0, _, _, _ => .timeout
  | _ + 1, s, _, [] => .ok (false, s)
  | n + 1, s, v, t :: ts =>
    match occursInType n s v t with
    | .timeout => .timeout
    | .err e => .err e
    | .ok (b, s1) => if b then .ok (true, s1) else occursIn n s1 v ts

end

/-- `unify_var(v1, t2)` (both pre-pruned): no-op when `t2` is `v1` itself;
otherwise merge constraint sets when `t2` is a variable, then occurs-check
and either raise "recursive unification" or bind `v1.instance = t2`. -/
def unify_var : Nat → St → Nat → Ty → Res St
  | 0, _, _, _ => .timeout
  | n + 1, s, v, t =>
    if t = .tvar v then .ok s
    else
      let s1 :=
        match t with
        | .tvar w =>
          let u := (s.var v).constraints ∪ (s.var w).constraints
          (s.setCons v u).setCons w u
        | .tyop _ => s
      match occursInType n s1 v t with
      | .timeout => .timeout
      | .err e => .err e
      | .ok (b, s2) => if b then .err .recursiveUnification else .ok (s2.setInst v t)

mutual

/-- `unify(t1, t2)`: prune both sides; variable cases go to `unify_var`;
for two operators, first the higher-kinded branches (a variable-named
operator with arguments adopts the other operator's name and argument list in
place, then the two are re-unified), then the name/arity mismatch check, and
finally (in every non-raising path) the pairwise argument loop
`for p, q in zip(a.types, b.types)` reading the operators' current fields. -/
def unify : Nat → St → Ty → Ty → Res St
  | 0, _, _, _ => .timeout
  | n + 1, s, t1, t2 =>
    match prune n s t1 with
    | .timeout => .timeout
    | .err e => .err e
    | .ok (a, s1) =>
      match prune n s1 t2 with
      | .timeout => .timeout
      | .err e => .err e
      | .ok (b, s2) =>
        match a, b with
        | .tvar v, b => unify_var n s2 v b
        | .tyop i, .tvar w => unify_var n s2 w (.tyop i)
        | .tyop i, .tyop j =>
          let A := s2.op i
          let B := s2.op j
          if A.name.isVar ∧ A.args ≠ [] then
            let s3 := s2.setOp i ⟨B.name, B.args⟩
            match unify n s3 (.tyop i) (.tyop j) with
            | .timeout => .timeout
            | .err e => .err e
            | .ok s4 => unifyPairs n s4 (((s4.op i).args).zip ((s4.op j).args))
          else if B.name.isVar then
            match unify n s2 (.tyop j) (.tyop i) with
            | .timeout => .timeout
            | .err e => .err e
            | .ok s4 => unifyPairs n s4 (((s4.op i).args).zip ((s4.op j).args))
          else if A.name ≠ B.name ∨ A.args.length ≠ B.args.length then
            .err .typeMismatch
          else
            unifyPairs n s2 (A.args.zip B.args)

/-- The `for p, q in zip(a.types, b.types): unify(p, q)` loop. -/
def unifyPairs : Nat → St → List (Ty × Ty) → Res St
  | 0, _, _ => .timeout
  | _ + 1, s, [] => .ok s
  | n + 1, s, (p, q) :: rest =>
    match unify n s p q with
    | .timeout => .timeout
    | .err e => .err e
    | .ok s1 => unifyPairs n s1 rest

end

/-- `isGeneric(v, non_generic)` = `not occursIn(v, non_generic)`; the
non-generic set of `TypeVariable`s is carried as a list of variable ids. -/
def isGeneric (n : Nat) (s : St) (v : Nat) (ng : List Nat) : Res (Bool × St) :=
  match occursIn n s v (ng.map Ty.tvar) with
  | .timeout => .timeout
  | .err e => .err e
  | .ok (b, s1) => .ok (!b, s1)

mutual

/-- The inner `freshrec(tp)` of `fresh`: prune, then copy generic variables
(memoised in the `mappings` association list), share non-generic variables,
and rebuild operators with freshened arguments (a freshly allocated
`TypeOperator` carrying the old name unchanged and empty constraints on any
new variable). -/
def freshRec : Nat → St → List Nat → List (Nat × Nat) → Ty → Res (Ty × St × List (Nat × Nat))
  | 0, _, _, _, _ => .timeout
  | n + 1, s, ng, m, tp =>
    match prune n s tp with
    | .timeout => .timeout
    | .err e => .err e
    | .ok (p, s1) =>
      match p with
      | .tvar v =>
        match isGeneric n s1 v ng with
        | .timeout => .timeout
        | .err e => .err e
        | .ok (g, s2) =>
          if g then
            match m.lookup v with
            | some w => .ok (.tvar w, s2, m)
            | none =>
              let (w, s3) := s2.newVar ∅
              .ok (.tvar w, s3, (v, w) :: m)
          else .ok (.tvar v, s2, m)
      | .tyop o =>
        match freshList n s1 ng m (s1.op o).args with
        | .timeout => .timeout
        | .err e => .err e
        | .ok (args', s2, m') =>
          let (o', s3) := s2.newOp (s1.op o).name args'
          .ok (.tyop o', s3, m')

/-- Freshen a list of argument types left to right, threading state and the
memoisation map. -/
def freshList : Nat → St → List Nat → List (Nat × Nat) → List Ty → Res (List Ty × St × List (Nat × Nat))
  | 0, _, _, _, _ => .timeout
  | _ + 1, s, _, m, [] => .ok ([], s, m)
  | n + 1, s, ng, m, t :: ts =>
    match freshRec n s ng m t with
    | .timeout => .timeout
    | .err e => .err e
    | .ok (t', s1, m1) =>
      match freshList n s1 ng m1 ts with
      | .timeout => .timeout
      | .err e => .err e
      | .ok (ts', s2, m2) => .ok (t' :: ts', s2, m2)

end

/-- `fresh(t, non_generic)`: run `freshrec` with an initially empty
memoisation map. -/
def fresh (n : Nat) (s : St) (ng : List Nat) (t : Ty) : Res (Ty × St) :=
  match freshRec n s ng [] t with
  | .timeout => .timeout
  | .err e => .err e
  | .ok (t', s1, _) => .ok (t', s1)

/-- The typed-lambda-calculus AST (`Lam`, `Var`, `App`, `Let`). -/
inductive Term : Type
  | evar (name : String)
  | eapp (fn arg : Term)
  | elam (v : String) (body : Term)
  | elet (v : String) (defn body : Term)

/-- A type environment, mapping identifier names to types
(`env.copy()` followed by an update becomes a functional update). -/
def Env : Type := String → Option Ty

/-- Extend an environment (Python `new_env = env.copy(); new_env[v] = t`). -/
def Env.extend (env : Env) (x : String) (t : Ty) : Env :=
  fun y => if y = x then some t else env y

/-- `node.analyze(env, non_generic)` for the four AST node kinds:
`Var` looks up and freshens, `App` unifies `Function(arg_type, result_type)`
against the function's type, `Lam` extends env and the non-generic set with a
fresh argument variable, `Let` binds a fresh variable, marks it non-generic
while analysing the definition, unifies, then analyses the body with the
original non-generic set. -/
def analyze : Nat → St → Env → List Nat → Term → Res (Ty × St)
  | 0, _, _, _, _ => .timeout
  | n + 1, s, env, ng, .evar x =>
    match env x with
    | none => .err (.undefinedSymbol x)
    | some t => fresh n s ng t
  | n + 1, s, env, ng, .eapp f a =>
    match analyze n s env ng f with
    | .timeout => .timeout
    | .err e => .err e
    | .ok (ft, s1) =>
      match analyze n s1 env ng a with
      | .timeout => .timeout
      | .err e => .err e
      | .ok (at', s2) =>
        let (r, s3) := s2.newVar ∅
        let (fo, s4) := s3.newOp (.atom .arrow) [at', .tvar r]
        match unify n s4 (.tyop fo) ft with
        | .timeout => .timeout
        | .err e => .err e
        | .ok s5 => .ok (.tvar r, s5)
  | n + 1, s, env, ng, .elam v body =>
    let (a, s1) := s.newVar ∅
    match analyze n s1 (env.extend v (.tvar a)) (a :: ng) body with
    | .timeout => .timeout
    | .err e => .err e
    | .ok (bt, s2) =>
      let (fo, s3) := s2.newOp (.atom .arrow) [.tvar a, bt]
      .ok (.tyop fo, s3)
  | n + 1, s, env, ng, .elet v defn body =>
    let (nv, s1) := s.newVar ∅
    let env' := env.extend v (.tvar nv)
    match analyze n s1 env' (nv :: ng) defn with
    | .timeout => .timeout
    | .err e => .err e
    | .ok (dt, s2) =>
      match unify n s2 (.tvar nv) dt with
      | .timeout => .timeout
      | .err e => .err e
      | .ok s3 => analyze n s3 env' ng body

/-- A type expression fully resolved through the stores: the structural
reading of a type, used for "structurally equal" claims. -/
inductive Tree : Type
  | tvar (id : Nat)
  | top (name : TName) (args : List Tree)

mutual

/-- Fueled full resolution of a type to a `Tree`: variables are followed
through their `instance` chains (without mutating anything), operators are
resolved argument-wise. -/
def resolve : Nat → St → Ty → Option Tree
  | 0, _, _ => none
  | n + 1, s, .tvar v =>
    match (s.var v).inst with
    | none => some (.tvar v)
    | some t => resolve n s t
  | n + 1, s, .tyop o =>
    match resolveList n s (s.op o).args with
    | none => none
    | some trs => some (.top (s.op o).name trs)

/-- Fueled resolution of a list of types. -/
def resolveList : Nat → St → List Ty → Option (List Tree)
  | 0, _, _ => none
  | _ + 1, _, [] => some []
  | n + 1, s, t :: ts =>
    match resolve n s t with
    | none => none
    | some tr =>
      match resolveList n s ts with
      | none => none
      | some trs => some (tr :: trs)

end


/-! ## Concrete states and programs used by the example-driven claims -/

/-- The empty unification-graph state (no variables or operators allocated). -/
def st0 : St := ⟨[], []⟩

/-- Initial state for the let-polymorphism example: two generic variables
`a = tvar 0`, `b = tvar 1`, the pair constructor's type
`a -> b -> (a, b)` (ops 0..2), and two nullary concrete type operators
named `n1` (op 3) and `n2` (op 4). -/
def letPolyState (n1 n2 : String) : St :=
  let (_, s) := st0.newVar ∅
  let (_, s) := s.newVar ∅
  let (_, s) := s.newOp (.atom .tupleC) [.tvar 0, .tvar 1]
  let (_, s) := s.newOp (.atom .arrow) [.tvar 1, .tyop 0]
  let (_, s) := s.newOp (.atom .arrow) [.tvar 0, .tyop 1]
  let (_, s) := s.newOp (.atom (.con n1)) []
  let (_, s) := s.newOp (.atom (.con n2)) []
  s

/-- Environment binding `pair` to the polymorphic pair type and `one`,
`true` to the two concrete types. -/
def letPolyEnv : Env := fun x =>
  if x = "pair" then some (.tyop 2)
  else if x = "one" then some (.tyop 3)
  else if x = "true" then some (.tyop 4)
  else none

/-- The expression `let id = \x -> x in (pair (id one) (id true))`. -/
def letPolyTerm : Term :=
  .elet "id" (.elam "x" (.evar "x"))
    (.eapp (.eapp (.evar "pair") (.eapp (.evar "id") (.evar "one")))
           (.eapp (.evar "id") (.evar "true")))

/-- Run `analyze` and fully resolve the returned type in the final state. -/
def analyzeResolve (n : Nat) (s : St) (env : Env) (ng : List Nat) (tm : Term) : Res Tree :=
  match analyze n s env ng tm with
  | .timeout => .timeout
  | .err e => .err e
  | .ok (t, s') =>
    match resolve n s' t with
    | none => .timeout
    | some tr => .ok tr

set_option maxHeartbeats 16000000 in
set_option maxRecDepth 40000 in
/-- C1: analysing `let id = \x -> x in (pair (id one) (id true))` — a `Let`
binding the polymorphic identity whose body applies `id` at two concrete
argument types `n1` and `n2` — succeeds and yields the tuple of the two
concrete types: for every pair of concrete type names, the two call sites
get independent freshened variables and are not conflated. -/
theorem hask_c1_let_polymorphism (n1 n2 : String) :
    analyzeResolve 16 (letPolyState n1 n2) letPolyEnv [] letPolyTerm =
      .ok (.top (.atom .tupleC) [.top (.atom (.con n1)) [], .top (.atom (.con n2)) []]) := by
  simp [analyzeResolve, analyze, fresh, freshRec, freshList, unify, unifyPairs, unify_var,
    occursInType, occursIn, prune, isGeneric, resolve, resolveList, St.var, St.op, St.setInst,
    St.setCons, St.setOp, St.newVar, St.newOp, Env.extend, letPolyEnv, letPolyState, st0,
    TName.isVar, List.getD, List.set, List.lookup, List.zip, List.zipWith]


theorem var_inst_some_lt {s : St} {v : Nat} {t : Ty} (h : (s.var v).inst = some t) :
    v < s.vars.length := by
  by_contra hv
  rw [St.var, List.getD_eq_getElem?_getD, List.getElem?_eq_none (Nat.le_of_not_lt hv)] at h
  simp at h

theorem setInst_vars_length (s : St) (v : Nat) (t : Ty) :
    (s.setInst v t).vars.length = s.vars.length := by
  simp [St.setInst]

theorem setInst_ops (s : St) (v : Nat) (t : Ty) : (s.setInst v t).ops = s.ops := rfl

theorem var_setInst_self {s : St} {v : Nat} (t : Ty) (h : v < s.vars.length) :
    ((s.setInst v t).var v) = ⟨some t, (s.var v).constraints⟩ := by
  simp [St.setInst, St.var, List.getD_eq_getElem?_getD, List.getElem?_set_eq_of_lt _ h]

theorem var_setInst_other {s : St} {v x : Nat} (t : Ty) (h : x ≠ v) :
    ((s.setInst v t).var x) = s.var x := by
  simp [St.setInst, St.var, List.getD_eq_getElem?_getD, List.getElem?_set_ne (Ne.symm h)]

theorem prune_boundIff :
    ∀ n s t r s', prune n s t = .ok (r, s') →
      ∀ x, ((s'.var x).inst = none ↔ (s.var x).inst = none) := by
  intro n
  induction n with
  | zero => intro s t r s' h; simp [prune] at h
  | succ n ih =>
    intro s t r s' h x
    match t with
    | .tyop o =>
      simp [prune] at h
      obtain ⟨rfl, rfl⟩ := h
      rfl
    | .tvar v =>
      rw [prune] at h
      cases hv : (s.var v).inst with
      | none =>
        simp only [hv] at h
        simp at h
        obtain ⟨rfl, rfl⟩ := h
        rfl
      | some t0 =>
        simp only [hv] at h
        cases hp : prune n s t0 with
        | timeout => simp only [hp] at h; exact Res.noConfusion h
        | err e => simp only [hp] at h; exact Res.noConfusion h
        | ok p =>
          obtain ⟨r0, s1⟩ := p
          simp only [hp] at h
          simp at h
          obtain ⟨rfl, rfl⟩ := h
          by_cases hx : x = v
          · subst hx
            have hlt : x < s.vars.length := var_inst_some_lt hv
            have hb1 : ¬ (s1.var x).inst = none := by
              intro hnone
              rw [(ih s t0 r0 s1 hp x).1 hnone] at hv
              simp at hv
            have hlt1 : x < s1.vars.length := by
              cases hi : (s1.var x).inst with
              | none => exact absurd hi hb1
              | some u => exact var_inst_some_lt hi
            rw [var_setInst_self r0 hlt1]
            simp [hv]
          · rw [var_setInst_other r0 hx]
            exact ih s t0 r0 s1 hp x

theorem prune_ok_shape :
    ∀ n s t r s', prune n s t = .ok (r, s') →
      (∃ o, r = .tyop o) ∨ (∃ w, r = .tvar w ∧ (s'.var w).inst = none) := by
  intro n
  induction n with
  | zero => intro s t r s' h; simp [prune] at h
  | succ n ih =>
    intro s t r s' h
    match t with
    | .tyop o =>
      simp [prune] at h
      obtain ⟨rfl, rfl⟩ := h
      exact .inl ⟨o, rfl⟩
    | .tvar v =>
      rw [prune] at h
      cases hv : (s.var v).inst with
      | none =>
        simp only [hv] at h
        simp at h
        obtain ⟨rfl, rfl⟩ := h
        exact .inr ⟨v, rfl, hv⟩
      | some t0 =>
        simp only [hv] at h
        cases hp : prune n s t0 with
        | timeout => simp only [hp] at h; exact Res.noConfusion h
        | err e => simp only [hp] at h; exact Res.noConfusion h
        | ok p =>
          obtain ⟨r0, s1⟩ := p
          simp only [hp] at h
          simp at h
          obtain ⟨rfl, rfl⟩ := h
          rcases ih s t0 r0 s1 hp with ⟨o, rfl⟩ | ⟨w, rfl, hw⟩
          · exact .inl ⟨o, rfl⟩
          · refine .inr ⟨w, rfl, ?_⟩
            have hwv : w ≠ v := by
              intro he
              subst he
              rw [(prune_boundIff n s t0 _ s1 hp w).1 hw] at hv
              simp at hv
            rw [var_setInst_other _ hwv]
            exact hw

theorem prune_stable {n : Nat} {s : St} {t r : Ty} {s' : St} (h : prune n s t = .ok (r, s')) :
    ∀ m, prune (m + 1) s' r = .ok (r, s') := by
  intro m
  rcases prune_ok_shape n s t r s' h with ⟨o, rfl⟩ | ⟨w, rfl, hw⟩
  · simp [prune]
  · rw [prune]
    simp [hw]


/-! ## Resolution infrastructure -/

/-- `t` fully resolves to the tree `tr` in state `s` (with some fuel). -/
def ResolvesE (s : St) (t : Ty) (tr : Tree) : Prop := ∃ k, resolve k s t = some tr

/-- List version of `ResolvesE`. -/
def ResolvesLE (s : St) (ts : List Ty) (trs : List Tree) : Prop :=
  ∃ k, resolveList k s ts = some trs

theorem resolve_mono_all :
    ∀ k, (∀ k' s t tr, k ≤ k' → resolve k s t = some tr → resolve k' s t = some tr) ∧
         (∀ k' s ts trs, k ≤ k' → resolveList k s ts = some trs → resolveList k' s ts = some trs) := by
  intro k
  induction k with
  | zero =>
    constructor
    · intro k' s t tr _ h; simp [resolve] at h
    · intro k' s ts trs _ h; simp [resolveList] at h
  | succ k ih =>
    constructor
    · intro k' s t tr hk h
      obtain ⟨k'', rfl⟩ : ∃ m, k' = m + 1 := ⟨k' - 1, by omega⟩
      have hk2 : k ≤ k'' := by omega
      match t with
      | .tvar v =>
        rw [resolve] at h ⊢
        cases hv : (s.var v).inst with
        | none => simp only [hv] at h ⊢; exact h
        | some u =>
          simp only [hv] at h ⊢
          exact ih.1 k'' s u tr hk2 h
      | .tyop o =>
        rw [resolve] at h ⊢
        cases hl : resolveList k s (s.op o).args with
        | none => simp only [hl] at h; exact Option.noConfusion h
        | some trs =>
          simp only [hl, ih.2 k'' s _ trs hk2 hl] at h ⊢
          exact h
    · intro k' s ts trs hk h
      obtain ⟨k'', rfl⟩ : ∃ m, k' = m + 1 := ⟨k' - 1, by omega⟩
      have hk2 : k ≤ k'' := by omega
      match ts with
      | [] => rw [resolveList] at h ⊢; exact h
      | t :: ts =>
        rw [resolveList] at h ⊢
        cases hr : resolve k s t with
        | none => simp only [hr] at h; exact Option.noConfusion h
        | some tr =>
          simp only [hr, ih.1 k'' s t tr hk2 hr] at h ⊢
          cases hl : resolveList k s ts with
          | none => simp only [hl] at h; exact Option.noConfusion h
          | some trs' =>
            simp only [hl, ih.2 k'' s ts trs' hk2 hl] at h ⊢
            exact h

theorem resolve_mono {k k' : Nat} {s : St} {t : Ty} {tr : Tree} (hk : k ≤ k')
    (h : resolve k s t = some tr) : resolve k' s t = some tr :=
  (resolve_mono_all k).1 k' s t tr hk h

theorem resolveList_mono {k k' : Nat} {s : St} {ts : List Ty} {trs : List Tree} (hk : k ≤ k')
    (h : resolveList k s ts = some trs) : resolveList k' s ts = some trs :=
  (resolve_mono_all k).2 k' s ts trs hk h

theorem ResolvesE_unique {s : St} {t : Ty} {tr1 tr2 : Tree}
    (h1 : ResolvesE s t tr1) (h2 : ResolvesE s t tr2) : tr1 = tr2 := by
  obtain ⟨k1, h1⟩ := h1
  obtain ⟨k2, h2⟩ := h2
  have e1 := resolve_mono (Nat.le_max_left k1 k2) h1
  have e2 := resolve_mono (Nat.le_max_right k1 k2) h2
  rw [e2] at e1
  exact (Option.some_inj.mp e1).symm

theorem setCons_var_inst (s : St) (v : Nat) (c : Finset String) (x : Nat) :
    ((s.setCons v c).var x).inst = (s.var x).inst := by
  by_cases hx : x = v
  · subst hx
    by_cases hl : x < s.vars.length
    · simp [St.setCons, St.var, List.getD_eq_getElem?_getD, List.getElem?_set_eq_of_lt _ hl]
    · simp [St.setCons, St.var, List.set_eq_of_length_le (Nat.le_of_not_lt hl)]
  · simp [St.setCons, St.var, List.getD_eq_getElem?_getD, List.getElem?_set_ne (Ne.symm hx)]

theorem setCons_op (s : St) (v : Nat) (c : Finset String) (o : Nat) :
    (s.setCons v c).op o = s.op o := rfl

theorem resolve_congr_all (s1 s2 : St)
    (h1 : ∀ x, (s1.var x).inst = (s2.var x).inst) (h2 : ∀ o, s1.op o = s2.op o) :
    ∀ k, (∀ t, resolve k s1 t = resolve k s2 t) ∧
         (∀ ts, resolveList k s1 ts = resolveList k s2 ts) := by
  intro k
  induction k with
  | zero => exact ⟨fun t => rfl, fun ts => rfl⟩
  | succ k ih =>
    constructor
    · intro t
      match t with
      | .tvar v => rw [resolve, resolve, h1 v]; cases (s2.var v).inst <;> simp [ih.1]
      | .tyop o => rw [resolve, resolve, h2 o, ih.2]
    · intro ts
      match ts with
      | [] => rfl
      | t :: ts => rw [resolveList, resolveList, ih.1 t, ih.2 ts]

theorem resolve_setCons (s : St) (v : Nat) (c : Finset String) (k : Nat) (t : Ty) :
    resolve k (s.setCons v c) t = resolve k s t :=
  (resolve_congr_all _ _ (setCons_var_inst s v c) (setCons_op s v c) k).1 t

theorem ResolvesE_var_unbound {s : St} {x : Nat} (h : (s.var x).inst = none) (tr : Tree) :
    ResolvesE s (.tvar x) tr ↔ tr = .tvar x := by
  constructor
  · rintro ⟨k, hk⟩
    match k with
    | 0 => simp [resolve] at hk
    | k + 1 =>
      rw [resolve] at hk
      simp only [h] at hk
      exact (Option.some_inj.mp hk).symm
  · rintro rfl
    exact ⟨1, by rw [resolve]; simp [h]⟩

theorem ResolvesE_var_bound {s : St} {x : Nat} {u : Ty} (h : (s.var x).inst = some u) (tr : Tree) :
    ResolvesE s (.tvar x) tr ↔ ResolvesE s u tr := by
  constructor
  · rintro ⟨k, hk⟩
    match k with
    | 0 => simp [resolve] at hk
    | k + 1 =>
      rw [resolve] at hk
      simp only [h] at hk
      exact ⟨k, hk⟩
  · rintro ⟨k, hk⟩
    exact ⟨k + 1, by rw [resolve]; simp only [h]; exact hk⟩

theorem ResolvesE_op {s : St} {o : Nat} (tr : Tree) :
    ResolvesE s (.tyop o) tr ↔
      ∃ trs, tr = .top (s.op o).name trs ∧ ResolvesLE s (s.op o).args trs := by
  constructor
  · rintro ⟨k, hk⟩
    match k with
    | 0 => simp [resolve] at hk
    | k + 1 =>
      rw [resolve] at hk
      cases hl : resolveList k s (s.op o).args with
      | none => simp only [hl] at hk; exact Option.noConfusion hk
      | some trs =>
        simp only [hl] at hk
        exact ⟨trs, (Option.some_inj.mp hk).symm, k, hl⟩
  · rintro ⟨trs, rfl, k, hk⟩
    exact ⟨k + 1, by rw [resolve]; simp only [hk]⟩

theorem ResolvesLE_nil {s : St} {trs : List Tree} :
    ResolvesLE s [] trs ↔ trs = [] := by
  constructor
  · rintro ⟨k, hk⟩
    match k with
    | 0 => simp [resolveList] at hk
    | k + 1 => rw [resolveList] at hk; exact (Option.some_inj.mp hk).symm
  · rintro rfl; exact ⟨1, rfl⟩

theorem ResolvesLE_cons {s : St} {t : Ty} {ts : List Ty} {trs : List Tree} :
    ResolvesLE s (t :: ts) trs ↔
      ∃ tr trs', trs = tr :: trs' ∧ ResolvesE s t tr ∧ ResolvesLE s ts trs' := by
  constructor
  · rintro ⟨k, hk⟩
    match k with
    | 0 => simp [resolveList] at hk
    | k + 1 =>
      rw [resolveList] at hk
      cases hr : resolve k s t with
      | none => simp only [hr] at hk; exact Option.noConfusion hk
      | some tr =>
        simp only [hr] at hk
        cases hl : resolveList k s ts with
        | none => simp only [hl] at hk; exact Option.noConfusion hk
        | some trs' =>
          simp only [hl] at hk
          exact ⟨tr, trs', (Option.some_inj.mp hk).symm, ⟨k, hr⟩, ⟨k, hl⟩⟩
  · rintro ⟨tr, trs', rfl, ⟨k1, h1⟩, ⟨k2, h2⟩⟩
    refine ⟨max k1 k2 + 1, ?_⟩
    rw [resolveList]
    simp only [resolve_mono (Nat.le_max_left k1 k2) h1,
      resolveList_mono (Nat.le_max_right k1 k2) h2]

theorem ResolvesLE_iff_forall₂ {s : St} {ts : List Ty} {trs : List Tree} :
    ResolvesLE s ts trs ↔ List.Forall₂ (ResolvesE s) ts trs := by
  induction ts generalizing trs with
  | nil =>
    rw [ResolvesLE_nil]
    constructor
    · rintro rfl; exact .nil
    · rintro h; cases h; rfl
  | cons t ts ih =>
    rw [ResolvesLE_cons]
    constructor
    · rintro ⟨tr, trs', rfl, h1, h2⟩
      exact .cons h1 (ih.mp h2)
    · rintro h
      cases h with
      | cons h1 h2 => exact ⟨_, _, rfl, h1, ih.mpr h2⟩

theorem op_setInst (s : St) (v : Nat) (t : Ty) (o : Nat) : (s.setInst v t).op o = s.op o := rfl

theorem sizeOf_mem_lt_top {m : TName} {trs : List Tree} {tr : Tree} (h : tr ∈ trs) :
    sizeOf tr < sizeOf (Tree.top m trs) := by
  have h1 := List.sizeOf_lt_of_mem h
  have h2 : sizeOf (Tree.top m trs) = 1 + sizeOf m + sizeOf trs := by
    simp [Tree.top.sizeOf_spec]
  omega

theorem forall₂_mem_imp {α β : Type} {R R' : α → β → Prop} :
    ∀ {ts : List α} {trs : List β}, List.Forall₂ R ts trs →
      (∀ t tr, t ∈ ts → tr ∈ trs → R t tr → R' t tr) → List.Forall₂ R' ts trs := by
  intro ts trs h
  induction h with
  | nil => intro _; exact .nil
  | cons h1 h2 ih =>
    intro himp
    exact .cons (himp _ _ (List.mem_cons_self _ _) (List.mem_cons_self _ _) h1)
      (ih fun t tr ht htr => himp t tr (List.mem_cons_of_mem _ ht) (List.mem_cons_of_mem _ htr))

theorem compress_fwd {s : St} {v : Nat} {t0 r : Ty}
    (hb : (s.var v).inst = some t0)
    (heq : ∀ tr, ResolvesE s t0 tr ↔ ResolvesE s r tr)
    (hr : (∃ o, r = .tyop o) ∨ (∃ w, r = .tvar w ∧ (s.var w).inst = none)) :
    ∀ N tr, sizeOf tr ≤ N → ∀ X, ResolvesE s X tr → ResolvesE (s.setInst v r) X tr := by
  have hvlt : v < s.vars.length := var_inst_some_lt hb
  intro N
  induction N using Nat.strong_induction_on with
  | _ N ihN =>
  intro tr hsz X hX
  obtain ⟨k, hk⟩ := hX
  induction k using Nat.strong_induction_on generalizing X with
  | _ k ihk =>
  match k, X with
  | 0, X => simp [resolve] at hk
  | k0 + 1, .tyop o =>
    rw [resolve] at hk
    cases hl : resolveList k0 s (s.op o).args with
    | none => simp only [hl] at hk; exact Option.noConfusion hk
    | some trs =>
      simp only [hl] at hk
      obtain rfl : Tree.top (s.op o).name trs = tr := Option.some_inj.mp hk
      have hfa : List.Forall₂ (ResolvesE s) (s.op o).args trs :=
        ResolvesLE_iff_forall₂.mp ⟨k0, hl⟩
      have hfa' : List.Forall₂ (ResolvesE (s.setInst v r)) (s.op o).args trs :=
        forall₂_mem_imp hfa (fun t tr' _ htr' hres =>
          ihN (sizeOf tr') (by have := sizeOf_mem_lt_top (m := (s.op o).name) htr'; omega)
            tr' le_rfl t hres)
      exact (ResolvesE_op _).mpr ⟨trs, by rw [op_setInst], by
        rw [op_setInst]; exact ResolvesLE_iff_forall₂.mpr hfa'⟩
  | k0 + 1, .tvar x =>
    rw [resolve] at hk
    by_cases hxv : x = v
    · subst hxv
      simp only [hb] at hk
      have hres0 : ResolvesE s r tr := (heq tr).mp ⟨k0, hk⟩
      have hres' : ResolvesE (s.setInst x r) r tr := by
        rcases hr with ⟨o, rfl⟩ | ⟨w, rfl, hw⟩
        · obtain ⟨trs, rfl, hle⟩ := (ResolvesE_op (s := s) tr).mp hres0
          have hfa : List.Forall₂ (ResolvesE s) (s.op o).args trs :=
            ResolvesLE_iff_forall₂.mp hle
          have hfa' : List.Forall₂ (ResolvesE (s.setInst x (.tyop o))) (s.op o).args trs :=
            forall₂_mem_imp hfa (fun t tr' _ htr' hres =>
              ihN (sizeOf tr') (by have := sizeOf_mem_lt_top (m := (s.op o).name) htr'; omega)
                tr' le_rfl t hres)
          exact (ResolvesE_op _).mpr ⟨trs, by rw [op_setInst], by
            rw [op_setInst]; exact ResolvesLE_iff_forall₂.mpr hfa'⟩
        · have hwx : w ≠ x := fun he => by rw [he, hb] at hw; exact Option.noConfusion hw
          obtain rfl : tr = .tvar w := (ResolvesE_var_unbound hw tr).mp hres0
          refine (ResolvesE_var_unbound ?_ _).mpr rfl
          rw [var_setInst_other _ hwx]
          exact hw
      have hinst : ((s.setInst x r).var x).inst = some r := by
        rw [var_setInst_self _ hvlt]
      exact (ResolvesE_var_bound hinst tr).mpr hres'
    · cases hx : (s.var x).inst with
      | none =>
        simp only [hx] at hk
        obtain rfl : Tree.tvar x = tr := Option.some_inj.mp hk
        refine (ResolvesE_var_unbound ?_ _).mpr rfl
        rw [var_setInst_other _ hxv]
        exact hx
      | some u =>
        simp only [hx] at hk
        have hres' : ResolvesE (s.setInst v r) u tr := ihk k0 (by omega) u hk
        have hinst : ((s.setInst v r).var x).inst = some u := by
          rw [var_setInst_other _ hxv]
          exact hx
        exact (ResolvesE_var_bound hinst tr).mpr hres'
theorem compress_bwd {s : St} {v : Nat} {t0 r : Ty}
    (hb : (s.var v).inst = some t0)
    (heq : ∀ tr, ResolvesE s t0 tr ↔ ResolvesE s r tr)
    (hr : (∃ o, r = .tyop o) ∨ (∃ w, r = .tvar w ∧ (s.var w).inst = none)) :
    ∀ N tr, sizeOf tr ≤ N → ∀ X, ResolvesE (s.setInst v r) X tr → ResolvesE s X tr := by
  have hvlt : v < s.vars.length := var_inst_some_lt hb
  intro N
  induction N using Nat.strong_induction_on with
  | _ N ihN =>
  intro tr hsz X hX
  obtain ⟨k, hk⟩ := hX
  induction k using Nat.strong_induction_on generalizing X with
  | _ k ihk =>
  match k, X with
  | 0, X => simp [resolve] at hk
  | k0 + 1, .tyop o =>
    rw [resolve] at hk
    cases hl : resolveList k0 (s.setInst v r) ((s.setInst v r).op o).args with
    | none => simp only [hl] at hk; exact Option.noConfusion hk
    | some trs =>
      simp only [hl] at hk
      obtain rfl : Tree.top ((s.setInst v r).op o).name trs = tr := Option.some_inj.mp hk
      have hfa : List.Forall₂ (ResolvesE (s.setInst v r)) ((s.setInst v r).op o).args trs :=
        ResolvesLE_iff_forall₂.mp ⟨k0, hl⟩
      have hfa' : List.Forall₂ (ResolvesE s) ((s.setInst v r).op o).args trs :=
        forall₂_mem_imp hfa (fun t tr' _ htr' hres =>
          ihN (sizeOf tr')
            (by have := sizeOf_mem_lt_top (m := ((s.setInst v r).op o).name) htr'; omega)
            tr' le_rfl t hres)
      refine (ResolvesE_op _).mpr ⟨trs, ?_, ?_⟩
      · rw [op_setInst]
      · rw [op_setInst] at hfa'
        exact ResolvesLE_iff_forall₂.mpr hfa'
  | k0 + 1, .tvar x =>
    rw [resolve] at hk
    by_cases hxv : x = v
    · subst hxv
      rw [var_setInst_self _ hvlt] at hk
      simp only at hk
      have hres0 : ResolvesE s r tr := by
        rcases hr with ⟨o, rfl⟩ | ⟨w, rfl, hw⟩
        · obtain ⟨trs, htr, hle⟩ := (ResolvesE_op (s := s.setInst x (.tyop o)) tr).mp ⟨k0, hk⟩
          have hfa : List.Forall₂ (ResolvesE (s.setInst x (.tyop o)))
              ((s.setInst x (.tyop o)).op o).args trs := ResolvesLE_iff_forall₂.mp hle
          have hfa' : List.Forall₂ (ResolvesE s) ((s.setInst x (.tyop o)).op o).args trs :=
            forall₂_mem_imp hfa (fun t tr' _ htr' hres =>
              ihN (sizeOf tr')
                (by
                  have h2 := sizeOf_mem_lt_top (m := ((s.setInst x (.tyop o)).op o).name) htr'
                  rw [htr] at hsz; omega)
                tr' le_rfl t hres)
          refine (ResolvesE_op _).mpr ⟨trs, ?_, ?_⟩
          · rw [htr, op_setInst]
          · rw [op_setInst] at hfa'
            exact ResolvesLE_iff_forall₂.mpr hfa'
        · have hwx : w ≠ x := fun he => by rw [he, hb] at hw; exact Option.noConfusion hw
          have hw' : ((s.setInst x (.tvar w)).var w).inst = none := by
            rw [var_setInst_other _ hwx]; exact hw
          obtain rfl : tr = .tvar w := (ResolvesE_var_unbound hw' tr).mp ⟨k0, hk⟩
          exact (ResolvesE_var_unbound hw _).mpr rfl
      have hres1 : ResolvesE s t0 tr := (heq tr).mpr hres0
      exact (ResolvesE_var_bound hb tr).mpr hres1
    · rw [var_setInst_other _ hxv] at hk
      cases hx : (s.var x).inst with
      | none =>
        simp only [hx] at hk
        obtain rfl : Tree.tvar x = tr := Option.some_inj.mp hk
        exact (ResolvesE_var_unbound hx _).mpr rfl
      | some u =>
        simp only [hx] at hk
        have hres' : ResolvesE s u tr := ihk k0 (by omega) u hk
        exact (ResolvesE_var_bound hx tr).mpr hres'

theorem resolve_setInst_compress {s : St} {v : Nat} {t0 r : Ty}
    (hb : (s.var v).inst = some t0)
    (heq : ∀ tr, ResolvesE s t0 tr ↔ ResolvesE s r tr)
    (hr : (∃ o, r = .tyop o) ∨ (∃ w, r = .tvar w ∧ (s.var w).inst = none)) :
    ∀ X tr, ResolvesE s X tr ↔ ResolvesE (s.setInst v r) X tr := fun X tr =>
  ⟨compress_fwd hb heq hr (sizeOf tr) tr le_rfl X,
   compress_bwd hb heq hr (sizeOf tr) tr le_rfl X⟩

theorem prune_writes :
    ∀ n s t r s', prune n s t = .ok (r, s') →
      ∀ x u, (s.var x).inst = some u →
        (s'.var x).inst = some u ∨ (s'.var x).inst = some r := by
  intro n
  induction n with
  | zero => intro s t r s' h; simp [prune] at h
  | succ n ih =>
    intro s t r s' h x u hx
    match t with
    | .tyop o =>
      simp [prune] at h
      obtain ⟨rfl, rfl⟩ := h
      exact .inl hx
    | .tvar v =>
      rw [prune] at h
      cases hv : (s.var v).inst with
      | none =>
        simp only [hv] at h
        simp at h
        obtain ⟨rfl, rfl⟩ := h
        exact .inl hx
      | some t0 =>
        simp only [hv] at h
        cases hp : prune n s t0 with
        | timeout => simp only [hp] at h; exact Res.noConfusion h
        | err e => simp only [hp] at h; exact Res.noConfusion h
        | ok p =>
          obtain ⟨r0, s1⟩ := p
          simp only [hp] at h
          simp at h
          obtain ⟨rfl, rfl⟩ := h
          by_cases hxv : x = v
          · subst hxv
            have hb1 : ¬ (s1.var x).inst = none := by
              intro hnone
              rw [(prune_boundIff n s t0 _ s1 hp x).1 hnone] at hx
              exact Option.noConfusion hx
            have hlt1 : x < s1.vars.length := by
              cases hi : (s1.var x).inst with
              | none => exact absurd hi hb1
              | some u' => exact var_inst_some_lt hi
            rw [var_setInst_self _ hlt1]
            exact .inr rfl
          · rw [var_setInst_other _ hxv]
            exact ih s t0 r0 s1 hp x u hx

theorem prune_resolve_preserved :
    ∀ n s t r s', prune n s t = .ok (r, s') →
      (∀ X tr, ResolvesE s X tr ↔ ResolvesE s' X tr) ∧
      (∀ tr, ResolvesE s' t tr ↔ ResolvesE s' r tr) := by
  intro n
  induction n with
  | zero => intro s t r s' h; simp [prune] at h
  | succ n ih =>
    intro s t r s' h
    match t with
    | .tyop o =>
      simp [prune] at h
      obtain ⟨rfl, rfl⟩ := h
      exact ⟨fun X tr => Iff.rfl, fun tr => Iff.rfl⟩
    | .tvar v =>
      rw [prune] at h
      cases hv : (s.var v).inst with
      | none =>
        simp only [hv] at h
        simp at h
        obtain ⟨rfl, rfl⟩ := h
        exact ⟨fun X tr => Iff.rfl, fun tr => Iff.rfl⟩
      | some t0 =>
        simp only [hv] at h
        cases hp : prune n s t0 with
        | timeout => simp only [hp] at h; exact Res.noConfusion h
        | err e => simp only [hp] at h; exact Res.noConfusion h
        | ok p =>
          obtain ⟨r0, s1⟩ := p
          simp only [hp] at h
          simp at h
          obtain ⟨rfl, rfl⟩ := h
          obtain ⟨E1, E2⟩ := ih s t0 r0 s1 hp
          have hb1 : ∃ u1, (s1.var v).inst = some u1 ∧ (u1 = t0 ∨ u1 = r0) := by
            rcases prune_writes n s t0 r0 s1 hp v t0 hv with h1 | h1
            · exact ⟨t0, h1, .inl rfl⟩
            · exact ⟨r0, h1, .inr rfl⟩
          obtain ⟨u1, hu1, hcase⟩ := hb1
          have heq1 : ∀ tr, ResolvesE s1 u1 tr ↔ ResolvesE s1 r0 tr := by
            rcases hcase with rfl | rfl
            · exact E2
            · exact fun tr => Iff.rfl
          have hr1 := prune_ok_shape n s t0 r0 s1 hp
          have hcomp := resolve_setInst_compress hu1 heq1 hr1
          refine ⟨fun X tr => (E1 X tr).trans (hcomp X tr), fun tr => ?_⟩
          have hvlt1 : v < s1.vars.length := var_inst_some_lt hu1
          have hinst : ((s1.setInst v r0).var v).inst = some r0 := by
            rw [var_setInst_self _ hvlt1]
          exact ResolvesE_var_bound hinst tr

/-- Whether the variable `v` occurs (as an argument-position leaf) in a fully
resolved type tree — the semantic reading of the occurs-check. -/
def treeOccurs (v : Nat) : Tree → Bool
  | .tvar w => decide (w = v)
  | .top _ args => go args
where go : List Tree → Bool
  | [] => false
  | t :: ts => treeOccurs v t || go ts

theorem treeOccurs_go_any (v : Nat) : ∀ trs : List Tree, treeOccurs.go v trs = trs.any (treeOccurs v) := by
  intro trs
  induction trs with
  | nil => rfl
  | cons t ts ih => rw [treeOccurs.go, ih, List.any_cons]

theorem prune_frame :
    ∀ n s t r s', prune n s t = .ok (r, s') →
      s'.ops = s.ops ∧ s'.vars.length = s.vars.length := by
  intro n
  induction n with
  | zero => intro s t r s' h; simp [prune] at h
  | succ n ih =>
    intro s t r s' h
    match t with
    | .tyop o =>
      simp [prune] at h
      obtain ⟨rfl, rfl⟩ := h
      exact ⟨rfl, rfl⟩
    | .tvar v =>
      rw [prune] at h
      cases hv : (s.var v).inst with
      | none =>
        simp only [hv] at h
        simp at h
        obtain ⟨rfl, rfl⟩ := h
        exact ⟨rfl, rfl⟩
      | some t0 =>
        simp only [hv] at h
        cases hp : prune n s t0 with
        | timeout => simp only [hp] at h; exact Res.noConfusion h
        | err e => simp only [hp] at h; exact Res.noConfusion h
        | ok p =>
          obtain ⟨r0, s1⟩ := p
          simp only [hp] at h
          simp at h
          obtain ⟨rfl, rfl⟩ := h
          obtain ⟨h1, h2⟩ := ih s t0 r0 s1 hp
          exact ⟨h1, by rw [setInst_vars_length]; exact h2⟩

theorem occurs_pack :
    ∀ n, (∀ s v t b s', occursInType n s v t = .ok (b, s') →
            (s'.ops = s.ops ∧ s'.vars.length = s.vars.length) ∧
            (∀ X tr, ResolvesE s X tr ↔ ResolvesE s' X tr) ∧
            (∀ tr, ResolvesE s' t tr → b = treeOccurs v tr) ∧
            (b = false → ∃ tr, ResolvesE s' t tr)) ∧
         (∀ s v ts b s', occursIn n s v ts = .ok (b, s') →
            (s'.ops = s.ops ∧ s'.vars.length = s.vars.length) ∧
            (∀ X tr, ResolvesE s X tr ↔ ResolvesE s' X tr) ∧
            (∀ trs, ResolvesLE s' ts trs → b = trs.any (treeOccurs v)) ∧
            (b = false → ∃ trs, ResolvesLE s' ts trs)) := by
  intro n
  induction n with
  | zero =>
    constructor
    · intro s v t b s' h; simp [occursInType] at h
    · intro s v ts b s' h; simp [occursIn] at h
  | succ n ih =>
    constructor
    · intro s v t b s' h
      rw [occursInType] at h
      cases hp : prune n s t with
      | timeout => simp only [hp] at h; exact Res.noConfusion h
      | err e => simp only [hp] at h; exact Res.noConfusion h
      | ok q =>
        obtain ⟨p, s1⟩ := q
        simp only [hp] at h
        obtain ⟨E1, E2⟩ := prune_resolve_preserved n s t p s1 hp
        obtain ⟨hops1, hlen1⟩ := prune_frame n s t p s1 hp
        match p with
        | .tvar w =>
          simp at h
          obtain ⟨rfl, rfl⟩ := h
          have hw : (s1.var w).inst = none := by
            rcases prune_ok_shape n s t _ s1 hp with ⟨o, ho⟩ | ⟨w', hw', hu⟩
            · exact absurd ho (by simp)
            · cases hw'
              exact hu
          refine ⟨⟨hops1, hlen1⟩, E1, fun tr htr => ?_, fun _ => ?_⟩
          · have h2 : ResolvesE s1 (.tvar w) tr := (E2 tr).mp htr
            obtain rfl : tr = .tvar w := (ResolvesE_var_unbound hw tr).mp h2
            rfl
          · exact ⟨.tvar w, (E2 _).mpr ((ResolvesE_var_unbound hw _).mpr rfl)⟩
        | .tyop o =>
          obtain ⟨⟨hops2, hlen2⟩, E1', H2', H3'⟩ := (ih.2) s1 v (s1.op o).args b s' h
          have Etrans : ∀ X tr, ResolvesE s X tr ↔ ResolvesE s' X tr :=
            fun X tr => (E1 X tr).trans (E1' X tr)
          have E2' : ∀ tr, ResolvesE s' t tr ↔ ResolvesE s' (.tyop o) tr :=
            fun tr => ((E1' t tr).symm.trans (E2 tr)).trans (E1' _ tr)
          have hop' : s'.op o = s1.op o := by
            show (s'.ops).getD o _ = (s1.ops).getD o _
            rw [hops2]
          refine ⟨⟨by rw [hops2, hops1], by rw [hlen2, hlen1]⟩, Etrans, fun tr htr => ?_, fun hb => ?_⟩
          · have h2 : ResolvesE s' (.tyop o) tr := (E2' tr).mp htr
            obtain ⟨trs, rfl, hle⟩ := (ResolvesE_op tr).mp h2
            have := H2' trs (by rw [← hop']; exact hle)
            rw [this, treeOccurs, treeOccurs_go_any]
          · obtain ⟨trs, hle⟩ := H3' hb
            refine ⟨.top (s'.op o).name trs, (E2' _).mpr ?_⟩
            exact (ResolvesE_op _).mpr ⟨trs, rfl, by rw [hop']; exact hle⟩
    · intro s v ts b s' h
      match ts with
      | [] =>
        rw [occursIn] at h
        simp at h
        obtain ⟨rfl, rfl⟩ := h
        refine ⟨⟨rfl, rfl⟩, fun X tr => Iff.rfl, fun trs htr => ?_, fun _ => ⟨[], 1, rfl⟩⟩
        obtain rfl : trs = [] := ResolvesLE_nil.mp htr
        rfl
      | t :: ts =>
        rw [occursIn] at h
        cases ho : occursInType n s v t with
        | timeout => simp only [ho] at h; exact Res.noConfusion h
        | err e => simp only [ho] at h; exact Res.noConfusion h
        | ok q =>
          obtain ⟨b1, s1⟩ := q
          simp only [ho] at h
          obtain ⟨⟨hops1, hlen1⟩, E1, H2, H3⟩ := (ih.1) s v t b1 s1 ho
          by_cases hb1 : b1 = true
          · subst hb1
            simp at h
            obtain ⟨rfl, rfl⟩ := h
            refine ⟨⟨hops1, hlen1⟩, E1, fun trs htr => ?_, fun hfalse => by simp at hfalse⟩
            obtain ⟨tr, trs', rfl, htr1, _⟩ := ResolvesLE_cons.mp htr
            have := H2 tr htr1
            rw [List.any_cons, ← this]
            rfl
          · have hb1' : b1 = false := by simpa using hb1
            subst hb1'
            simp at h
            obtain ⟨⟨hops2, hlen2⟩, E1', H2', H3'⟩ := (ih.2) s1 v ts b s' h
            have Etrans : ∀ X tr, ResolvesE s X tr ↔ ResolvesE s' X tr :=
              fun X tr => (E1 X tr).trans (E1' X tr)
            refine ⟨⟨by rw [hops2, hops1], by rw [hlen2, hlen1]⟩, Etrans, fun trs htr => ?_, fun hb => ?_⟩
            · obtain ⟨tr, trs', rfl, htr1, htrs'⟩ := ResolvesLE_cons.mp htr
              have hocc1 : false = treeOccurs v tr := H2 tr ((E1' t tr).mpr htr1)
              have hocc2 : b = trs'.any (treeOccurs v) := H2' trs' htrs'
              rw [List.any_cons, ← hocc1, ← hocc2]
              rfl
            · obtain ⟨tr, htr⟩ := H3 rfl
              obtain ⟨trs', htrs'⟩ := H3' hb
              exact ⟨tr :: trs', ResolvesLE_cons.mpr ⟨tr, trs', rfl, (E1' t tr).mp htr, htrs'⟩⟩

theorem treeOccurs_top_false {v : Nat} {nm : TName} {trs : List Tree}
    (h : treeOccurs v (.top nm trs) = false) :
    ∀ tr ∈ trs, treeOccurs v tr = false := by
  intro tr htr
  rw [treeOccurs, treeOccurs_go_any] at h
  simpa using List.any_eq_false.mp h tr htr

theorem treeOccurs_top_of_parts {v : Nat} {nm : TName} {trs : List Tree}
    (h : ∀ tr ∈ trs, treeOccurs v tr = false) :
    treeOccurs v (.top nm trs) = false := by
  rw [treeOccurs, treeOccurs_go_any]
  exact List.any_eq_false.mpr (fun tr htr => by simpa using h tr htr)

theorem resolve_setInst_fresh {s : St} {v : Nat} {u : Ty} (hv : (s.var v).inst = none) :
    ∀ N tr, sizeOf tr ≤ N → ∀ X, ResolvesE s X tr → treeOccurs v tr = false →
      ResolvesE (s.setInst v u) X tr := by
  intro N
  induction N using Nat.strong_induction_on with
  | _ N ihN =>
  intro tr hsz X hX hocc
  obtain ⟨k, hk⟩ := hX
  induction k using Nat.strong_induction_on generalizing X with
  | _ k ihk =>
  match k, X with
  | 0, X => simp [resolve] at hk
  | k0 + 1, .tyop o =>
    rw [resolve] at hk
    cases hl : resolveList k0 s (s.op o).args with
    | none => simp only [hl] at hk; exact Option.noConfusion hk
    | some trs =>
      simp only [hl] at hk
      obtain rfl : Tree.top (s.op o).name trs = tr := Option.some_inj.mp hk
      have hparts := treeOccurs_top_false hocc
      have hfa : List.Forall₂ (ResolvesE s) (s.op o).args trs :=
        ResolvesLE_iff_forall₂.mp ⟨k0, hl⟩
      have hfa' : List.Forall₂ (ResolvesE (s.setInst v u)) (s.op o).args trs :=
        forall₂_mem_imp hfa (fun t tr' _ htr' hres =>
          ihN (sizeOf tr') (by have := sizeOf_mem_lt_top (m := (s.op o).name) htr'; omega)
            tr' le_rfl t hres (hparts tr' htr'))
      exact (ResolvesE_op _).mpr ⟨trs, by rw [op_setInst], by
        rw [op_setInst]; exact ResolvesLE_iff_forall₂.mpr hfa'⟩
  | k0 + 1, .tvar x =>
    rw [resolve] at hk
    by_cases hxv : x = v
    · subst hxv
      simp only [hv] at hk
      obtain rfl : Tree.tvar x = tr := Option.some_inj.mp hk
      rw [treeOccurs] at hocc
      simp at hocc
    · cases hx : (s.var x).inst with
      | none =>
        simp only [hx] at hk
        obtain rfl : Tree.tvar x = tr := Option.some_inj.mp hk
        refine (ResolvesE_var_unbound ?_ _).mpr rfl
        rw [var_setInst_other _ hxv]
        exact hx
      | some u' =>
        simp only [hx] at hk
        have hres' := ihk k0 (by omega) u' hk
        have hinst : ((s.setInst v u).var x).inst = some u' := by
          rw [var_setInst_other _ hxv]; exact hx
        exact (ResolvesE_var_bound hinst tr).mpr hres'

theorem prune_no_err : ∀ n s t e, prune n s t ≠ .err e := by
  intro n
  induction n with
  | zero => intro s t e h; simp [prune] at h
  | succ n ih =>
    intro s t e h
    match t with
    | .tyop o => simp [prune] at h
    | .tvar v =>
      rw [prune] at h
      cases hv : (s.var v).inst with
      | none => simp only [hv] at h; exact Res.noConfusion h
      | some t0 =>
        simp only [hv] at h
        cases hp : prune n s t0 with
        | timeout => simp only [hp] at h; exact Res.noConfusion h
        | err e' => exact ih s t0 e' hp
        | ok p => obtain ⟨r0, s1⟩ := p; simp only [hp] at h; exact Res.noConfusion h

theorem occurs_no_err :
    ∀ n, (∀ s v t e, occursInType n s v t ≠ .err e) ∧
         (∀ s v ts e, occursIn n s v ts ≠ .err e) := by
  intro n
  induction n with
  | zero =>
    exact ⟨fun s v t e h => by simp [occursInType] at h,
           fun s v ts e h => by simp [occursIn] at h⟩
  | succ n ih =>
    constructor
    · intro s v t e h
      rw [occursInType] at h
      cases hp : prune n s t with
      | timeout => simp only [hp] at h; exact Res.noConfusion h
      | err e' => exact prune_no_err n s t e' hp
      | ok q =>
        obtain ⟨p, s1⟩ := q
        simp only [hp] at h
        match p with
        | .tvar w => simp at h
        | .tyop o => exact ih.2 s1 v (s1.op o).args e h
    · intro s v ts e h
      match ts with
      | [] => rw [occursIn] at h; exact Res.noConfusion h
      | t :: ts =>
        rw [occursIn] at h
        cases ho : occursInType n s v t with
        | timeout => simp only [ho] at h; exact Res.noConfusion h
        | err e' => exact ih.1 s v t e' ho
        | ok q =>
          obtain ⟨b1, s1⟩ := q
          simp only [ho] at h
          by_cases hb : b1 = true
          · subst hb; simp at h
          · have hb' : b1 = false := by simpa using hb
            subst hb'
            simp at h
            exact ih.2 s1 v ts e h

theorem setCons_vars_length (s : St) (v : Nat) (c : Finset String) :
    (s.setCons v c).vars.length = s.vars.length := by
  simp [St.setCons]

theorem ResolvesE_setCons (s : St) (v : Nat) (c : Finset String) (X : Ty) (tr : Tree) :
    ResolvesE (s.setCons v c) X tr ↔ ResolvesE s X tr := by
  constructor
  · rintro ⟨k, hk⟩; exact ⟨k, by rw [resolve_setCons] at hk; exact hk⟩
  · rintro ⟨k, hk⟩; exact ⟨k, by rw [resolve_setCons]; exact hk⟩

theorem prune_top_write {n : Nat} {s : St} {v : Nat} {t0 r : Ty} {s' : St}
    (h : prune n s (.tvar v) = .ok (r, s')) (hv : (s.var v).inst = some t0) :
    (s'.var v).inst = some r := by
  match n with
  | 0 => simp [prune] at h
  | n + 1 =>
    rw [prune] at h
    simp only [hv] at h
    cases hp : prune n s t0 with
    | timeout => simp only [hp] at h; exact Res.noConfusion h
    | err e => simp only [hp] at h; exact Res.noConfusion h
    | ok p =>
      obtain ⟨r0, s1⟩ := p
      simp only [hp] at h
      simp at h
      obtain ⟨rfl, rfl⟩ := h
      have hb1 : ¬ (s1.var v).inst = none := by
        intro hnone
        rw [(prune_boundIff n s t0 _ s1 hp v).1 hnone] at hv
        exact Option.noConfusion hv
      have hlt1 : v < s1.vars.length := by
        cases hi : (s1.var v).inst with
        | none => exact absurd hi hb1
        | some u' => exact var_inst_some_lt hi
      rw [var_setInst_self _ hlt1]

/-- C5: whenever `prune` returns, its result is an uninstantiated
`TypeVariable` or a `TypeOperator`, pruning that result again is the identity
(on both the result and the state, so `prune(prune(t)) == prune(t)`), and when
the pruned type was a bound variable its `instance` field now caches the
fully-resolved result (path compression). -/
theorem hask_c5_prune_idempotent (n : Nat) (s : St) (t r : Ty) (s' : St)
    (h : prune n s t = .ok (r, s')) :
    ((∃ o, r = .tyop o) ∨ (∃ w, r = .tvar w ∧ (s'.var w).inst = none)) ∧
    (∀ m, prune (m + 1) s' r = .ok (r, s')) ∧
    (∀ v t0, t = .tvar v → (s.var v).inst = some t0 → (s'.var v).inst = some r) := by
  refine ⟨prune_ok_shape n s t r s' h, prune_stable h, ?_⟩
  rintro v t0 rfl hv
  exact prune_top_write h hv

/-- State for the C5 witness: variable 0 bound to the unbound variable 1. -/
def pruneWitnessSt : St := ⟨[⟨some (.tvar 1), ∅⟩, ⟨none, ∅⟩], []⟩

/-- Witness for C5 at a concrete input. -/
theorem hask_c5_witness :
    prune 3 pruneWitnessSt (.tvar 0) = .ok (.tvar 1, pruneWitnessSt) ∧
    (((∃ o, (Ty.tvar 1) = .tyop o) ∨
        (∃ w, (Ty.tvar 1) = .tvar w ∧ (pruneWitnessSt.var w).inst = none)) ∧
     (∀ m, prune (m + 1) pruneWitnessSt (.tvar 1) = .ok (.tvar 1, pruneWitnessSt)) ∧
     (∀ v t0, (Ty.tvar 0) = .tvar v → (pruneWitnessSt.var v).inst = some t0 →
        (pruneWitnessSt.var v).inst = some (.tvar 1))) :=
  ⟨by decide, hask_c5_prune_idempotent 3 pruneWitnessSt (.tvar 0) (.tvar 1) pruneWitnessSt
      (by decide)⟩
theorem occurs_boundIff :
    ∀ n, (∀ s v t b s', occursInType n s v t = .ok (b, s') →
            ∀ x, ((s'.var x).inst = none ↔ (s.var x).inst = none)) ∧
         (∀ s v ts b s', occursIn n s v ts = .ok (b, s') →
            ∀ x, ((s'.var x).inst = none ↔ (s.var x).inst = none)) := by
  intro n
  induction n with
  | zero =>
    constructor
    · intro s v t b s' h; simp [occursInType] at h
    · intro s v ts b s' h; simp [occursIn] at h
  | succ n ih =>
    constructor
    · intro s v t b s' h x
      rw [occursInType] at h
      cases hp : prune n s t with
      | timeout => simp only [hp] at h; exact Res.noConfusion h
      | err e => simp only [hp] at h; exact Res.noConfusion h
      | ok q =>
        obtain ⟨p, s1⟩ := q
        simp only [hp] at h
        match p with
        | .tvar w =>
          simp at h
          obtain ⟨rfl, rfl⟩ := h
          exact prune_boundIff n s t _ _ hp x
        | .tyop o =>
          exact ((ih.2) s1 v _ b s' h x).trans (prune_boundIff n s t _ s1 hp x)
    · intro s v ts b s' h x
      match ts with
      | [] =>
        rw [occursIn] at h
        simp at h
        obtain ⟨rfl, rfl⟩ := h
        exact Iff.rfl
      | t :: ts =>
        rw [occursIn] at h
        cases ho : occursInType n s v t with
        | timeout => simp only [ho] at h; exact Res.noConfusion h
        | err e => simp only [ho] at h; exact Res.noConfusion h
        | ok q =>
          obtain ⟨b1, s1⟩ := q
          simp only [ho] at h
          by_cases hb : b1 = true
          · subst hb
            simp at h
            obtain ⟨rfl, rfl⟩ := h
            exact (ih.1) s v t _ _ ho x
          · have hb' : b1 = false := by simpa using hb
            subst hb'
            simp at h
            exact ((ih.2) s1 v ts b s' h x).trans ((ih.1) s v t _ s1 ho x)

/-- The constraint-merged intermediate state of `unify_var` (the Python code
updates both variables' constraint sets to the union when `t2` is a
variable). -/
def mergeSt (s : St) (v : Nat) : Ty → St
  | .tvar w =>
    ((s.setCons v ((s.var v).constraints ∪ (s.var w).constraints)).setCons w
      ((s.var v).constraints ∪ (s.var w).constraints))
  | .tyop _ => s

theorem ResolvesE_mergeSt (s : St) (v : Nat) (t : Ty) (X : Ty) (tr : Tree) :
    ResolvesE (mergeSt s v t) X tr ↔ ResolvesE s X tr := by
  match t with
  | .tvar w =>
    simp only [mergeSt]
    exact (ResolvesE_setCons _ _ _ _ _).trans (ResolvesE_setCons _ _ _ _ _)
  | .tyop o => exact Iff.rfl

theorem mergeSt_vars_length (s : St) (v : Nat) (t : Ty) :
    (mergeSt s v t).vars.length = s.vars.length := by
  match t with
  | .tvar w => simp only [mergeSt]; rw [setCons_vars_length, setCons_vars_length]
  | .tyop o => rfl

theorem mergeSt_var_inst (s : St) (v : Nat) (t : Ty) (x : Nat) :
    ((mergeSt s v t).var x).inst = (s.var x).inst := by
  match t with
  | .tvar w => simp only [mergeSt]; rw [setCons_var_inst, setCons_var_inst]
  | .tyop o => rfl

theorem unify_var_ok_inv {n : Nat} {s : St} {v : Nat} {t : Ty} {s' : St}
    (h : unify_var n s v t = .ok s') (hne : t ≠ .tvar v) :
    ∃ n' s2, n = n' + 1 ∧ occursInType n' (mergeSt s v t) v t = .ok (false, s2) ∧
      s' = s2.setInst v t := by
  match n with
  | 0 => simp [unify_var] at h
  | n + 1 =>
    simp only [unify_var] at h
    rw [if_neg hne] at h
    refine ⟨n, ?_⟩
    match t with
    | .tvar w =>
      cases hocc : occursInType n (mergeSt s v (.tvar w)) v (.tvar w) with
      | timeout => rw [mergeSt] at hocc; simp only [hocc] at h; exact Res.noConfusion h
      | err e => rw [mergeSt] at hocc; simp only [hocc] at h; exact Res.noConfusion h
      | ok q =>
        obtain ⟨b, s2⟩ := q
        simp only [mergeSt] at hocc
        simp only [hocc] at h
        cases b with
        | true => simp at h
        | false =>
          simp at h
          exact ⟨s2, rfl, by simpa only [mergeSt] using hocc, h.symm⟩
    | .tyop j =>
      cases hocc : occursInType n s v (.tyop j) with
      | timeout => simp only [hocc] at h; exact Res.noConfusion h
      | err e => simp only [hocc] at h; exact Res.noConfusion h
      | ok q =>
        obtain ⟨b, s2⟩ := q
        simp only [hocc] at h
        cases b with
        | true => simp at h
        | false =>
          simp at h
          exact ⟨s2, rfl, hocc, h.symm⟩

set_option maxHeartbeats 1000000 in
/-- C2: (1) unifying an unbound variable `v` with `Function(v, v)` raises the
infinite-type ("recursive unification") error, in any state; and for
`unify_var(v, t)` with `t` not `v` itself: (2) on success the variable is
bound, `v.instance = t`; (3) the only error `unify_var` raises is the
infinite-type error; (4) when `v` is unbound, on success `t`'s fully
resolved type exists and does not contain `v` free (occurs-check soundness);
(5) if `t`'s fully resolved type does contain `v`, `unify_var` cannot
succeed. -/
theorem hask_c2_occurs_check :
    (∀ s v o, (s.var v).inst = none → s.op o = ⟨.atom .arrow, [.tvar v, .tvar v]⟩ →
      unify 7 s (.tvar v) (.tyop o) = .err .recursiveUnification) ∧
    (∀ n s v t s', t ≠ .tvar v → v < s.vars.length → unify_var n s v t = .ok s' →
      (s'.var v).inst = some t) ∧
    (∀ n s v t e, unify_var n s v t = .err e → e = .recursiveUnification) ∧
    (∀ n s v t s', t ≠ .tvar v → (s.var v).inst = none → unify_var n s v t = .ok s' →
      ∃ tr, ResolvesE s' t tr ∧ treeOccurs v tr = false) ∧
    (∀ n s v t s' tr, ResolvesE s t tr → treeOccurs v tr = true → t ≠ .tvar v →
      unify_var n s v t ≠ .ok s') := by
  refine ⟨?_, ?_, ?_, ?_, ?_⟩
  · intro s v o hv ho
    simp [unify, unify_var, occursInType, occursIn, prune, hv, ho]
  · intro n s v t s' hne hlt h
    obtain ⟨n', s2, rfl, hocc, rfl⟩ := unify_var_ok_inv h hne
    have hlen : s2.vars.length = s.vars.length := by
      rw [((occurs_pack n').1 _ v t false s2 hocc).1.2, mergeSt_vars_length]
    rw [var_setInst_self _ (by rw [hlen]; exact hlt)]
  · intro n s v t e h
    match n with
    | 0 => simp [unify_var] at h
    | n + 1 =>
      simp only [unify_var] at h
      by_cases hne : t = .tvar v
      · rw [if_pos hne] at h; exact Res.noConfusion h
      · rw [if_neg hne] at h
        revert h
        match t with
        | .tvar w =>
          intro h
          cases hocc : occursInType n ((s.setCons v ((s.var v).constraints ∪ (s.var w).constraints)).setCons w ((s.var v).constraints ∪ (s.var w).constraints)) v (.tvar w) with
          | timeout => simp only [hocc] at h; exact Res.noConfusion h
          | err e' => exact absurd hocc ((occurs_no_err n).1 _ v _ e')
          | ok q =>
            obtain ⟨b, s2⟩ := q
            simp only [hocc] at h
            cases b with
            | true => simp at h; exact h.symm
            | false => simp at h
        | .tyop j =>
          intro h
          cases hocc : occursInType n s v (.tyop j) with
          | timeout => simp only [hocc] at h; exact Res.noConfusion h
          | err e' => exact absurd hocc ((occurs_no_err n).1 _ v _ e')
          | ok q =>
            obtain ⟨b, s2⟩ := q
            simp only [hocc] at h
            cases b with
            | true => simp at h; exact h.symm
            | false => simp at h
  · intro n s v t s' hne hv h
    obtain ⟨n', s2, rfl, hocc, rfl⟩ := unify_var_ok_inv h hne
    obtain ⟨_, _, H2, H3⟩ := (occurs_pack n').1 _ v t false s2 hocc
    obtain ⟨tr, htr⟩ := H3 rfl
    have hfree : treeOccurs v tr = false := (H2 tr htr).symm
    have hv2 : (s2.var v).inst = none := by
      have hbm := (occurs_boundIff n').1 _ v t false s2 hocc v
      rw [hbm, mergeSt_var_inst]
      exact hv
    exact ⟨tr, resolve_setInst_fresh hv2 (sizeOf tr) tr le_rfl t htr hfree, hfree⟩
  · intro n s v t s' tr htr hoccT hne h
    obtain ⟨n', s2, rfl, hocc, rfl⟩ := unify_var_ok_inv h hne
    obtain ⟨_, E1, H2, _⟩ := (occurs_pack n').1 _ v t false s2 hocc
    have htr2 : ResolvesE s2 t tr :=
      (E1 t tr).mp ((ResolvesE_mergeSt s v t t tr).mpr htr)
    have := H2 tr htr2
    rw [hoccT] at this
    exact Bool.noConfusion this

/-- State for the C2 witness: an unbound variable 0 and the operator
`Function(tvar 0, tvar 0)`. -/
def occursWitnessSt : St := ⟨[⟨none, ∅⟩], [⟨.atom .arrow, [.tvar 0, .tvar 0]⟩]⟩

/-- Witness for C2 at a concrete input. -/
theorem hask_c2_witness :
    unify 7 occursWitnessSt (.tvar 0) (.tyop 0) = .err .recursiveUnification :=
  hask_c2_occurs_check.1 occursWitnessSt 0 0 (by decide) (by decide)

/-- Initial state for the C3 scenario: two unbound variables with constraint
sets `c1` and `c2`. -/
def consState (c1 c2 : Finset String) : St :=
  let (_, s) := st0.newVar c1
  let (_, s) := s.newVar c2
  s

/-- C3: unifying two unbound `TypeVariable`s with constraint sets `c1` and
`c2` (e.g. `{Eq}` and `{Ord}`) binds one to the other and gives both the
union constraint set (e.g. `{Eq, Ord}`); the union is the same set in either
argument order (symmetry), and re-running the same unification afterwards
changes nothing (idempotence). -/
theorem hask_c3_constraint_merge (c1 c2 : Finset String) :
    (unify 4 (consState c1 c2) (.tvar 0) (.tvar 1) =
      .ok ⟨[⟨some (.tvar 1), c1 ∪ c2⟩, ⟨none, c1 ∪ c2⟩], []⟩) ∧
    (unify 4 (consState c1 c2) (.tvar 1) (.tvar 0) =
      .ok ⟨[⟨none, c1 ∪ c2⟩, ⟨some (.tvar 0), c1 ∪ c2⟩], []⟩) ∧
    (unify 4 ⟨[⟨some (.tvar 1), c1 ∪ c2⟩, ⟨none, c1 ∪ c2⟩], []⟩ (.tvar 0) (.tvar 1) =
      .ok ⟨[⟨some (.tvar 1), c1 ∪ c2⟩, ⟨none, c1 ∪ c2⟩], []⟩) := by
  refine ⟨?_, ?_, ?_⟩ <;>
    simp [consState, unify, unifyPairs, unify_var, occursInType, occursIn, prune,
      St.var, St.op, St.setInst, St.setCons, St.setOp, St.newVar, St.newOp, st0,
      List.getD, List.set, Finset.union_comm]

theorem op_congr {s1 s2 : St} (h : s1.ops = s2.ops) (o : Nat) : s1.op o = s2.op o := by
  rw [St.op, St.op, h]

theorem getD_append_lt {l : List OpInfo} {x : OpInfo} {o : Nat} (h : o < l.length) (d : OpInfo) :
    (l ++ [x]).getD o d = l.getD o d := by
  simp [List.getD_eq_getElem?_getD, List.getElem?_append, h]

theorem unify_var_ops {n : Nat} {s : St} {v : Nat} {t : Ty} {s' : St}
    (h : unify_var n s v t = .ok s') : s'.ops = s.ops := by
  by_cases hne : t = .tvar v
  · subst hne
    match n with
    | 0 => simp [unify_var] at h
    | n + 1 =>
      simp only [unify_var] at h
      simp at h
      rw [← h]
  · obtain ⟨n', s2, rfl, hocc, rfl⟩ := unify_var_ok_inv h hne
    have h1 : s2.ops = (mergeSt s v t).ops := ((occurs_pack n').1 _ v t false s2 hocc).1.1
    have h2 : (mergeSt s v t).ops = s.ops := by
      match t with
      | .tvar w => rfl
      | .tyop j => rfl
    rw [setInst_ops, h1, h2]

theorem isGeneric_ops {n : Nat} {s : St} {v : Nat} {ng : List Nat} {g : Bool} {s' : St}
    (h : isGeneric n s v ng = .ok (g, s')) : s'.ops = s.ops := by
  rw [isGeneric] at h
  cases ho : occursIn n s v (ng.map Ty.tvar) with
  | timeout => simp only [ho] at h; exact Res.noConfusion h
  | err e => simp only [ho] at h; exact Res.noConfusion h
  | ok q =>
    obtain ⟨b, s3⟩ := q
    simp only [ho] at h
    simp at h
    obtain ⟨rfl, rfl⟩ := h
    exact ((occurs_pack n).2 s v _ _ _ ho).1.1

theorem fresh_ops_frame :
    ∀ n, (∀ s ng m tp t' s' m', freshRec n s ng m tp = .ok (t', s', m') →
            s.ops.length ≤ s'.ops.length ∧ ∀ o, o < s.ops.length → s'.op o = s.op o) ∧
         (∀ s ng m ts ts' s' m', freshList n s ng m ts = .ok (ts', s', m') →
            s.ops.length ≤ s'.ops.length ∧ ∀ o, o < s.ops.length → s'.op o = s.op o) := by
  intro n
  induction n with
  | zero =>
    constructor
    · intro s ng m tp t' s' m' h; simp [freshRec] at h
    · intro s ng m ts ts' s' m' h; simp [freshList] at h
  | succ n ih =>
    constructor
    · intro s ng m tp t' s' m' h
      rw [freshRec] at h
      cases hp : prune n s tp with
      | timeout => simp only [hp] at h; exact Res.noConfusion h
      | err e => simp only [hp] at h; exact Res.noConfusion h
      | ok q =>
        obtain ⟨p, s1⟩ := q
        simp only [hp] at h
        have hops1 : s1.ops = s.ops := (prune_frame n s tp p s1 hp).1
        match p with
        | .tvar v =>
          cases hg : isGeneric n s1 v ng with
          | timeout => simp only [hg] at h; exact Res.noConfusion h
          | err e => simp only [hg] at h; exact Res.noConfusion h
          | ok q2 =>
            obtain ⟨g, s2⟩ := q2
            simp only [hg] at h
            have hops2 : s2.ops = s.ops := by rw [isGeneric_ops hg, hops1]
            cases g with
            | true =>
              simp only [if_true] at h
              cases hm : m.lookup v with
              | some w =>
                simp only [hm] at h
                simp at h
                obtain ⟨rfl, rfl, rfl⟩ := h
                rw [show s2.ops.length = s.ops.length from by rw [hops2]]
                exact ⟨le_rfl, fun o _ => op_congr hops2 o⟩
              | none =>
                simp only [hm] at h
                simp [St.newVar] at h
                obtain ⟨rfl, rfl, rfl⟩ := h
                have hops3 : ({ s2 with vars := s2.vars ++ [⟨none, ∅⟩] } : St).ops = s.ops := hops2
                rw [show ({ s2 with vars := s2.vars ++ [⟨none, ∅⟩] } : St).ops.length = s.ops.length
                    from by rw [hops3]]
                exact ⟨le_rfl, fun o _ => op_congr hops3 o⟩
            | false =>
              simp at h
              obtain ⟨rfl, rfl, rfl⟩ := h
              rw [show s2.ops.length = s.ops.length from by rw [hops2]]
              exact ⟨le_rfl, fun o _ => op_congr hops2 o⟩
        | .tyop oo =>
          cases hf : freshList n s1 ng m (s1.op oo).args with
          | timeout => simp only [hf] at h; exact Res.noConfusion h
          | err e => simp only [hf] at h; exact Res.noConfusion h
          | ok q2 =>
            obtain ⟨args', s2, m2⟩ := q2
            simp only [hf] at h
            simp [St.newOp] at h
            obtain ⟨rfl, rfl, rfl⟩ := h
            obtain ⟨hle, hpre⟩ := ih.2 s1 ng m _ args' s2 m2 hf
            rw [hops1] at hle hpre
            constructor
            · refine le_trans hle ?_
              show s2.ops.length ≤ (s2.ops ++ [_]).length
              simp
            · intro o ho
              have h1 : ({ s2 with ops := s2.ops ++ [⟨(s1.op oo).name, args'⟩] } : St).op o
                  = s2.op o := by
                rw [St.op, St.op]
                exact getD_append_lt (Nat.lt_of_lt_of_le ho hle) _
              rw [h1]
              rw [show s2.op o = s1.op o from hpre o ho]
              exact op_congr hops1 o
    · intro s ng m ts ts' s' m' h
      match ts with
      | [] =>
        rw [freshList] at h
        simp at h
        obtain ⟨rfl, rfl, rfl⟩ := h
        exact ⟨le_rfl, fun o _ => rfl⟩
      | t :: ts =>
        rw [freshList] at h
        cases hf : freshRec n s ng m t with
        | timeout => simp only [hf] at h; exact Res.noConfusion h
        | err e => simp only [hf] at h; exact Res.noConfusion h
        | ok q =>
          obtain ⟨t', s1, m1⟩ := q
          simp only [hf] at h
          cases hl : freshList n s1 ng m1 ts with
          | timeout => simp only [hl] at h; exact Res.noConfusion h
          | err e => simp only [hl] at h; exact Res.noConfusion h
          | ok q2 =>
            obtain ⟨ts'', s2, m2⟩ := q2
            simp only [hl] at h
            simp at h
            obtain ⟨rfl, rfl, rfl⟩ := h
            obtain ⟨hle1, hpre1⟩ := ih.1 s ng m t t' s1 m1 hf
            obtain ⟨hle2, hpre2⟩ := ih.2 s1 ng m1 ts ts'' s2 m2 hl
            refine ⟨le_trans hle1 hle2, fun o ho => ?_⟩
            rw [hpre2 o (Nat.lt_of_lt_of_le ho hle1), hpre1 o ho]

theorem unify_hkt_step (n : Nat) (s : St) (i j x : Nat)
    (hname : (s.op i).name = .tv x) (hargs : (s.op i).args ≠ []) :
    unify (n + 1) s (.tyop i) (.tyop j) =
      (match unify n (s.setOp i ⟨(s.op j).name, (s.op j).args⟩) (.tyop i) (.tyop j) with
       | .timeout => .timeout
       | .err e => .err e
       | .ok s4 => unifyPairs n s4 (((s4.op i).args).zip ((s4.op j).args))) := by
  match n with
  | 0 => simp [unify, prune]
  | n + 1 =>
    rw [unify]
    have hp : prune (n + 1) s (.tyop i) = .ok (.tyop i, s) := by rw [prune]
    have hp2 : prune (n + 1) s (.tyop j) = .ok (.tyop j, s) := by rw [prune]
    simp only [hp, hp2]
    rw [if_pos ⟨by rw [hname]; rfl, hargs⟩]

theorem unify_atom_ops :
    ∀ n, (∀ s t1 t2 s', (∀ o, ((s.op o).name.isVar) = false) → unify n s t1 t2 = .ok s' →
            s'.ops = s.ops) ∧
         (∀ s ps s', (∀ o, ((s.op o).name.isVar) = false) → unifyPairs n s ps = .ok s' →
            s'.ops = s.ops) := by
  intro n
  induction n with
  | zero =>
    constructor
    · intro s t1 t2 s' _ h; simp [unify] at h
    · intro s ps s' _ h; simp [unifyPairs] at h
  | succ n ih =>
    constructor
    · intro s t1 t2 s' hall h
      rw [unify] at h
      cases hp1 : prune n s t1 with
      | timeout => simp only [hp1] at h; exact Res.noConfusion h
      | err e => simp only [hp1] at h; exact Res.noConfusion h
      | ok q1 =>
        obtain ⟨a, s1⟩ := q1
        simp only [hp1] at h
        have hops1 : s1.ops = s.ops := (prune_frame n s t1 a s1 hp1).1
        cases hp2 : prune n s1 t2 with
        | timeout => simp only [hp2] at h; exact Res.noConfusion h
        | err e => simp only [hp2] at h; exact Res.noConfusion h
        | ok q2 =>
          obtain ⟨b, s2⟩ := q2
          simp only [hp2] at h
          have hops2 : s2.ops = s.ops := by rw [(prune_frame n s1 t2 b s2 hp2).1, hops1]
          have hall2 : ∀ o, ((s2.op o).name.isVar) = false := by
            intro o
            rw [op_congr hops2 o]
            exact hall o
          match a, b with
          | .tvar v, b =>
            rw [show s'.ops = s2.ops from unify_var_ops h, hops2]
          | .tyop i, .tvar w =>
            rw [show s'.ops = s2.ops from unify_var_ops h, hops2]
          | .tyop i, .tyop j =>
            dsimp only at h
            rw [if_neg (by rw [hall2 i]; simp)] at h
            rw [if_neg (by rw [hall2 j]; simp)] at h
            by_cases hmis : (s2.op i).name ≠ (s2.op j).name ∨
                (s2.op i).args.length ≠ (s2.op j).args.length
            · rw [if_pos hmis] at h
              exact Res.noConfusion h
            · rw [if_neg hmis] at h
              rw [show s'.ops = s2.ops from ih.2 s2 _ s' hall2 h, hops2]
    · intro s ps s' hall h
      match ps with
      | [] =>
        rw [unifyPairs] at h
        simp at h
        rw [← h]
      | (p, q) :: rest =>
        rw [unifyPairs] at h
        cases hu : unify n s p q with
        | timeout => simp only [hu] at h; exact Res.noConfusion h
        | err e => simp only [hu] at h; exact Res.noConfusion h
        | ok s1 =>
          simp only [hu] at h
          have hops1 : s1.ops = s.ops := ih.1 s p q s1 hall hu
          have hall1 : ∀ o, ((s1.op o).name.isVar) = false := by
            intro o
            rw [op_congr hops1 o]
            exact hall o
          rw [ih.2 s1 rest s' hall1 h, hops1]

/-- C6: (1) when `unify` reaches two operators and the first one's name is a
type variable and it has at least one argument, it overwrites that operator
in place with the other operator's name and argument list and re-unifies the
two operators, then runs the argument loop — with no arity or kind check
(the hypotheses mention nothing about the two argument lists' lengths);
(2)–(5) `prune`, `occursInType`, `unify_var` and `freshrec` never change any
existing `TypeOperator`; (6) when no operator's name is a type variable,
`unify` never changes the operator store either — so the higher-kinded branch
is the one place a `TypeOperator` is mutated after construction. -/
theorem hask_c6_hkt_mutation :
    (∀ n s i j x, (s.op i).name = .tv x → (s.op i).args ≠ [] →
      unify (n + 1) s (.tyop i) (.tyop j) =
        (match unify n (s.setOp i ⟨(s.op j).name, (s.op j).args⟩) (.tyop i) (.tyop j) with
         | .timeout => .timeout
         | .err e => .err e
         | .ok s4 => unifyPairs n s4 (((s4.op i).args).zip ((s4.op j).args)))) ∧
    (∀ n s t r s', prune n s t = .ok (r, s') → s'.ops = s.ops) ∧
    (∀ n s v t b s', occursInType n s v t = .ok (b, s') → s'.ops = s.ops) ∧
    (∀ n s v t s', unify_var n s v t = .ok s' → s'.ops = s.ops) ∧
    (∀ n s ng m tp t' s' m', freshRec n s ng m tp = .ok (t', s', m') →
       ∀ o, o < s.ops.length → s'.op o = s.op o) ∧
    (∀ n s t1 t2 s', (∀ o, ((s.op o).name.isVar) = false) → unify n s t1 t2 = .ok s' →
       s'.ops = s.ops) := by
  refine ⟨?_, ?_, ?_, ?_, ?_, ?_⟩
  · intro n s i j x hname hargs
    exact unify_hkt_step n s i j x hname hargs
  · intro n s t r s' h
    exact (prune_frame n s t r s' h).1
  · intro n s v t b s' h
    exact ((occurs_pack n).1 s v t b s' h).1.1.trans rfl
  · intro n s v t s' h
    exact unify_var_ops h
  · intro n s ng m tp t' s' m' h
    exact ((fresh_ops_frame n).1 s ng m tp t' s' m' h).2
  · intro n s t1 t2 s' hall h
    exact (unify_atom_ops n).1 s t1 t2 s' hall h

/-- State for the C6 witness: `op 1` is a variable-named operator
`f int` (name `tvar 0`), `op 2` is `Maybe int`. -/
def hktWitnessSt : St :=
  ⟨[⟨none, ∅⟩],
   [⟨.atom (.con "int"), []⟩, ⟨.tv 0, [.tyop 0]⟩, ⟨.atom (.con "Maybe"), [.tyop 0]⟩]⟩

/-- Witness for C6 at a concrete input. -/
theorem hask_c6_witness :
    unify 6 hktWitnessSt (.tyop 1) (.tyop 2) =
      (match unify 5 (hktWitnessSt.setOp 1
          ⟨(hktWitnessSt.op 2).name, (hktWitnessSt.op 2).args⟩) (.tyop 1) (.tyop 2) with
       | .timeout => .timeout
       | .err e => .err e
       | .ok s4 => unifyPairs 5 s4 (((s4.op 1).args).zip ((s4.op 2).args))) :=
  hask_c6_hkt_mutation.1 5 hktWitnessSt 1 2 0 (by decide) (by decide)

theorem setOp_var (s : St) (o : Nat) (info : OpInfo) (x : Nat) :
    ((s.setOp o info).var x) = s.var x := rfl

theorem newVar_var_mono {s : St} {c : Finset String} {x : Nat}
    (h : (((s.newVar c).2).var x).inst = none) : (s.var x).inst = none := by
  rcases Nat.lt_trichotomy x s.vars.length with hx | hx | hx
  · rw [St.newVar] at h
    rw [St.var, List.getD_eq_getElem?_getD] at h ⊢
    rw [List.getElem?_append, if_pos hx] at h
    exact h
  · rw [St.var, List.getD_eq_getElem?_getD, hx, List.getElem?_eq_none le_rfl]
    rfl
  · rw [St.var, List.getD_eq_getElem?_getD, List.getElem?_eq_none (Nat.le_of_lt hx)]
    rfl

theorem unify_var_bound_mono {n : Nat} {s : St} {v : Nat} {t : Ty} {s' : St}
    (h : unify_var n s v t = .ok s') :
    ∀ x, (s'.var x).inst = none → (s.var x).inst = none := by
  intro x hx
  by_cases hne : t = .tvar v
  · subst hne
    match n with
    | 0 => simp [unify_var] at h
    | n + 1 =>
      simp only [unify_var] at h
      simp at h
      rw [h]
      exact hx
  · obtain ⟨n', s2, rfl, hocc, rfl⟩ := unify_var_ok_inv h hne
    have hiff := (occurs_boundIff n').1 _ v t false s2 hocc x
    rw [mergeSt_var_inst] at hiff
    by_cases hxv : x = v
    · subst hxv
      by_cases hlt : x < s2.vars.length
      · rw [var_setInst_self _ hlt] at hx
        exact Option.noConfusion hx
      · have : (s2.setInst x t) = s2 := by
          rw [St.setInst, List.set_eq_of_length_le (Nat.le_of_not_lt hlt)]
      
        rw [this] at hx
        exact hiff.mp hx
    · rw [var_setInst_other _ hxv] at hx
      exact hiff.mp hx

theorem unify_bound_mono :
    ∀ n, (∀ s t1 t2 s', unify n s t1 t2 = .ok s' →
            ∀ x, (s'.var x).inst = none → (s.var x).inst = none) ∧
         (∀ s ps s', unifyPairs n s ps = .ok s' →
            ∀ x, (s'.var x).inst = none → (s.var x).inst = none) := by
  intro n
  induction n with
  | zero =>
    constructor
    · intro s t1 t2 s' h; simp [unify] at h
    · intro s ps s' h; simp [unifyPairs] at h
  | succ n ih =>
    constructor
    · intro s t1 t2 s' h x hx
      rw [unify] at h
      cases hp1 : prune n s t1 with
      | timeout => simp only [hp1] at h; exact Res.noConfusion h
      | err e => simp only [hp1] at h; exact Res.noConfusion h
      | ok q1 =>
        obtain ⟨a, s1⟩ := q1
        simp only [hp1] at h
        cases hp2 : prune n s1 t2 with
        | timeout => simp only [hp2] at h; exact Res.noConfusion h
        | err e => simp only [hp2] at h; exact Res.noConfusion h
        | ok q2 =>
          obtain ⟨b, s2⟩ := q2
          simp only [hp2] at h
          have trans2 : ∀ y, (s2.var y).inst = none → (s.var y).inst = none := fun y hy =>
            (prune_boundIff n s t1 a s1 hp1 y).mp ((prune_boundIff n s1 t2 b s2 hp2 y).mp hy)
          match a, b with
          | .tvar v, b => exact trans2 x (unify_var_bound_mono h x hx)
          | .tyop i, .tvar w => exact trans2 x (unify_var_bound_mono h x hx)
          | .tyop i, .tyop j =>
            dsimp only at h
            by_cases hc1 : ((s2.op i).name.isVar = true ∧ (s2.op i).args ≠ [])
            · rw [if_pos hc1] at h
              cases hu : unify n (s2.setOp i ⟨(s2.op j).name, (s2.op j).args⟩) (.tyop i) (.tyop j) with
              | timeout => simp only [hu] at h; exact Res.noConfusion h
              | err e => simp only [hu] at h; exact Res.noConfusion h
              | ok s4 =>
                simp only [hu] at h
                have h5 := (ih.2) s4 _ s' h x hx
                have h6 := (ih.1) _ _ _ s4 hu x h5
                rw [setOp_var] at h6
                exact trans2 x h6
            · rw [if_neg hc1] at h
              by_cases hc2 : ((s2.op j).name.isVar = true)
              · rw [if_pos hc2] at h
                cases hu : unify n s2 (.tyop j) (.tyop i) with
                | timeout => simp only [hu] at h; exact Res.noConfusion h
                | err e => simp only [hu] at h; exact Res.noConfusion h
                | ok s4 =>
                  simp only [hu] at h
                  have h5 := (ih.2) s4 _ s' h x hx
                  exact trans2 x ((ih.1) _ _ _ s4 hu x h5)
              · rw [if_neg hc2] at h
                by_cases hc3 : ((s2.op i).name ≠ (s2.op j).name ∨
                    (s2.op i).args.length ≠ (s2.op j).args.length)
                · rw [if_pos hc3] at h
                  exact Res.noConfusion h
                · rw [if_neg hc3] at h
                  exact trans2 x ((ih.2) s2 _ s' h x hx)
    · intro s ps s' h x hx
      match ps with
      | [] =>
        rw [unifyPairs] at h
        simp at h
        rw [h]
        exact hx
      | (p, q) :: rest =>
        rw [unifyPairs] at h
        cases hu : unify n s p q with
        | timeout => simp only [hu] at h; exact Res.noConfusion h
        | err e => simp only [hu] at h; exact Res.noConfusion h
        | ok s1 =>
          simp only [hu] at h
          exact (ih.1) s p q s1 hu x ((ih.2) s1 rest s' h x hx)

theorem fresh_bound_mono :
    ∀ n, (∀ s ng m tp t' s' m', freshRec n s ng m tp = .ok (t', s', m') →
            ∀ x, (s'.var x).inst = none → (s.var x).inst = none) ∧
         (∀ s ng m ts ts' s' m', freshList n s ng m ts = .ok (ts', s', m') →
            ∀ x, (s'.var x).inst = none → (s.var x).inst = none) := by
  intro n
  induction n with
  | zero =>
    constructor
    · intro s ng m tp t' s' m' h; simp [freshRec] at h
    · intro s ng m ts ts' s' m' h; simp [freshList] at h
  | succ n ih =>
    constructor
    · intro s ng m tp t' s' m' h x hx
      rw [freshRec] at h
      cases hp : prune n s tp with
      | timeout => simp only [hp] at h; exact Res.noConfusion h
      | err e => simp only [hp] at h; exact Res.noConfusion h
      | ok q =>
        obtain ⟨p, s1⟩ := q
        simp only [hp] at h
        have hmono1 := fun y hy => (prune_boundIff n s tp p s1 hp y).mp hy
        match p with
        | .tvar v =>
          cases hg : isGeneric n s1 v ng with
          | timeout => simp only [hg] at h; exact Res.noConfusion h
          | err e => simp only [hg] at h; exact Res.noConfusion h
          | ok q2 =>
            obtain ⟨g, s2⟩ := q2
            simp only [hg] at h
            have hmono2 : ∀ y, (s2.var y).inst = none → (s1.var y).inst = none := by
              intro y hy
              rw [isGeneric] at hg
              cases ho : occursIn n s1 v (ng.map Ty.tvar) with
              | timeout => simp only [ho] at hg; exact Res.noConfusion hg
              | err e => simp only [ho] at hg; exact Res.noConfusion hg
              | ok q3 =>
                obtain ⟨b, s3⟩ := q3
                simp only [ho] at hg
                simp at hg
                obtain ⟨rfl, rfl⟩ := hg
                exact ((occurs_boundIff n).2 s1 v _ _ _ ho y).mp hy
            cases g with
            | true =>
              simp only [if_true] at h
              cases hm : m.lookup v with
              | some w =>
                simp only [hm] at h
                simp at h
                obtain ⟨rfl, rfl, rfl⟩ := h
                exact hmono1 x (hmono2 x hx)
              | none =>
                simp only [hm] at h
                simp [St.newVar] at h
                obtain ⟨rfl, rfl, rfl⟩ := h
                exact hmono1 x (hmono2 x (newVar_var_mono (c := ∅) (by exact hx)))
            | false =>
              simp at h
              obtain ⟨rfl, rfl, rfl⟩ := h
              exact hmono1 x (hmono2 x hx)
        | .tyop oo =>
          cases hf : freshList n s1 ng m (s1.op oo).args with
          | timeout => simp only [hf] at h; exact Res.noConfusion h
          | err e => simp only [hf] at h; exact Res.noConfusion h
          | ok q2 =>
            obtain ⟨args', s2, m2⟩ := q2
            simp only [hf] at h
            simp [St.newOp] at h
            obtain ⟨rfl, rfl, rfl⟩ := h
            have hx2 : (s2.var x).inst = none := hx
            exact hmono1 x (ih.2 s1 ng m _ args' s2 m2 hf x hx2)
    · intro s ng m ts ts' s' m' h x hx
      match ts with
      | [] =>
        rw [freshList] at h
        simp at h
        obtain ⟨rfl, rfl, rfl⟩ := h
        exact hx
      | t :: ts =>
        rw [freshList] at h
        cases hf : freshRec n s ng m t with
        | timeout => simp only [hf] at h; exact Res.noConfusion h
        | err e => simp only [hf] at h; exact Res.noConfusion h
        | ok q =>
          obtain ⟨t', s1, m1⟩ := q
          simp only [hf] at h
          cases hl : freshList n s1 ng m1 ts with
          | timeout => simp only [hl] at h; exact Res.noConfusion h
          | err e => simp only [hl] at h; exact Res.noConfusion h
          | ok q2 =>
            obtain ⟨ts'', s2, m2⟩ := q2
            simp only [hl] at h
            simp at h
            obtain ⟨rfl, rfl, rfl⟩ := h
            exact ih.1 s ng m t t' s1 m1 hf x (ih.2 s1 ng m1 ts ts'' s2 m2 hl x hx)

theorem var_append_mono {s1 s2 : St} {c : Finset String}
    (hv : s2.vars = s1.vars ++ [⟨none, c⟩]) :
    ∀ x, (s2.var x).inst = none → (s1.var x).inst = none := by
  intro x h
  rw [St.var, List.getD_eq_getElem?_getD, hv] at h
  rcases Nat.lt_trichotomy x s1.vars.length with hx | hx | hx
  · rw [List.getElem?_append, if_pos hx] at h
    rw [St.var, List.getD_eq_getElem?_getD]
    exact h
  · rw [St.var, List.getD_eq_getElem?_getD, hx, List.getElem?_eq_none le_rfl]
    rfl
  · rw [St.var, List.getD_eq_getElem?_getD, List.getElem?_eq_none (Nat.le_of_lt hx)]
    rfl

theorem analyze_bound_mono :
    ∀ n s env ng tm t' s', analyze n s env ng tm = .ok (t', s') →
      ∀ x, (s'.var x).inst = none → (s.var x).inst = none := by
  intro n
  induction n with
  | zero => intro s env ng tm t' s' h; simp [analyze] at h
  | succ n ih =>
    intro s env ng tm t' s' h x hx
    match tm with
    | .evar nm =>
      rw [analyze] at h
      cases he : env nm with
      | none => simp only [he] at h; exact Res.noConfusion h
      | some t0 =>
        simp only [he] at h
        rw [fresh] at h
        cases hf : freshRec n s ng [] t0 with
        | timeout => simp only [hf] at h; exact Res.noConfusion h
        | err e => simp only [hf] at h; exact Res.noConfusion h
        | ok q =>
          obtain ⟨t1, s1, m1⟩ := q
          simp only [hf] at h
          simp at h
          obtain ⟨rfl, rfl⟩ := h
          exact (fresh_bound_mono n).1 s ng [] t0 t1 _ m1 hf x hx
    | .eapp f a =>
      rw [analyze] at h
      cases h1 : analyze n s env ng f with
      | timeout => simp only [h1] at h; exact Res.noConfusion h
      | err e => simp only [h1] at h; exact Res.noConfusion h
      | ok q1 =>
        obtain ⟨ft, s1⟩ := q1
        simp only [h1] at h
        cases h2 : analyze n s1 env ng a with
        | timeout => simp only [h2] at h; exact Res.noConfusion h
        | err e => simp only [h2] at h; exact Res.noConfusion h
        | ok q2 =>
          obtain ⟨at', s2⟩ := q2
          simp only [h2] at h
          cases h3 : unify n ((s2.newVar ∅).2.newOp (.atom .arrow) [at', .tvar (s2.newVar ∅).1]).2
              (.tyop ((s2.newVar ∅).2.newOp (.atom .arrow) [at', .tvar (s2.newVar ∅).1]).1) ft with
          | timeout => simp only [St.newVar, St.newOp] at h ⊢; simp only [St.newVar, St.newOp] at h3; rw [h3] at h; exact Res.noConfusion h
          | err e => simp only [St.newVar, St.newOp] at h ⊢; simp only [St.newVar, St.newOp] at h3; rw [h3] at h; exact Res.noConfusion h
          | ok s5 =>
            simp only [St.newVar, St.newOp] at h h3
            rw [h3] at h
            simp at h
            obtain ⟨h6, h7⟩ := h
            subst h7
            have h4 := (unify_bound_mono n).1 _ _ _ _ h3 x hx
            have h5 : (s2.var x).inst = none := var_append_mono (c := ∅) rfl x h4
            exact ih _ _ _ f ft s1 h1 x (ih _ _ _ a at' s2 h2 x h5)
    | .elam v body =>
      rw [analyze] at h
      cases h1 : analyze n (s.newVar ∅).2 (Env.extend env v (.tvar (s.newVar ∅).1))
          ((s.newVar ∅).1 :: ng) body with
      | timeout => simp only [St.newVar] at h h1; rw [h1] at h; exact Res.noConfusion h
      | err e => simp only [St.newVar] at h h1; rw [h1] at h; exact Res.noConfusion h
      | ok q =>
        obtain ⟨bt, s2⟩ := q
        simp only [St.newVar] at h h1
        rw [h1] at h
        simp [St.newOp] at h
        obtain ⟨rfl, rfl⟩ := h
        have hx2 : (s2.var x).inst = none := hx
        exact newVar_var_mono (c := ∅) (ih _ _ _ body bt s2 h1 x hx2)
    | .elet v defn body =>
      rw [analyze] at h
      cases h1 : analyze n (s.newVar ∅).2 (Env.extend env v (.tvar (s.newVar ∅).1))
          ((s.newVar ∅).1 :: ng) defn with
      | timeout => simp only [St.newVar] at h h1; rw [h1] at h; exact Res.noConfusion h
      | err e => simp only [St.newVar] at h h1; rw [h1] at h; exact Res.noConfusion h
      | ok q =>
        obtain ⟨dt, s2⟩ := q
        simp only [St.newVar] at h h1
        rw [h1] at h
        cases h2 : unify n s2 (.tvar s.vars.length) dt with
        | timeout => simp only [h2] at h; exact Res.noConfusion h
        | err e => simp only [h2] at h; exact Res.noConfusion h
        | ok s3 =>
          simp only [h2] at h
          have h4 := ih _ _ _ body t' s' h x hx
          have h5 := (unify_bound_mono n).1 _ _ _ s3 h2 x h4
          have h6 := ih _ _ _ defn dt s2 h1 x h5
          exact newVar_var_mono (c := ∅) h6

theorem prune_write_equiv (n : Nat) (s : St) (t r : Ty) (s' : St)
    (h : prune n s t = .ok (r, s')) :
    ∀ x u u', (s.var x).inst = some u → (s'.var x).inst = some u' →
      ∀ tr, ResolvesE s' u tr ↔ ResolvesE s' u' tr := by
  intro x u u' hu hu' tr
  rcases prune_writes n s t r s' h x u hu with h1 | h1
  · rw [h1] at hu'
    obtain rfl := Option.some_inj.mp hu'
    exact Iff.rfl
  · have hur : u' = r := by
      rw [h1] at hu'
      exact (Option.some_inj.mp hu').symm
    rw [hur]
    have E := (prune_resolve_preserved n s t r s' h).1
    calc ResolvesE s' u tr
        ↔ ResolvesE s u tr := (E u tr).symm
      _ ↔ ResolvesE s (.tvar x) tr := (ResolvesE_var_bound hu tr).symm
      _ ↔ ResolvesE s' (.tvar x) tr := E (.tvar x) tr
      _ ↔ ResolvesE s' r tr := ResolvesE_var_bound h1 tr

/-- C9: (1) a freshly allocated `TypeVariable` is unbound; (2)–(3) `prune`
and the occurs-check bind no variable and unbind none (boundness is
preserved exactly); (4)–(7) `unify_var`, `unify`, `freshrec` and `analyze`
never reset a bound variable to unbound (a variable transitions
unbound → bound at most once); (8) when `prune` overwrites an
already-bound variable's `instance` (path compression), the new value is
resolution-equivalent to the old one — it denotes the fully-resolved type of
the same instance chain. -/
theorem hask_c9_instance_invariant :
    (∀ (s : St) (c : Finset String), (((s.newVar c).2).var (s.newVar c).1).inst = none) ∧
    (∀ n s t r s', prune n s t = .ok (r, s') →
       ∀ x, ((s'.var x).inst = none ↔ (s.var x).inst = none)) ∧
    (∀ n s v t b s', occursInType n s v t = .ok (b, s') →
       ∀ x, ((s'.var x).inst = none ↔ (s.var x).inst = none)) ∧
    (∀ n s v t s', unify_var n s v t = .ok s' →
       ∀ x, (s'.var x).inst = none → (s.var x).inst = none) ∧
    (∀ n s t1 t2 s', unify n s t1 t2 = .ok s' →
       ∀ x, (s'.var x).inst = none → (s.var x).inst = none) ∧
    (∀ n s ng m tp t' s' m', freshRec n s ng m tp = .ok (t', s', m') →
       ∀ x, (s'.var x).inst = none → (s.var x).inst = none) ∧
    (∀ n s env ng tm t' s', analyze n s env ng tm = .ok (t', s') →
       ∀ x, (s'.var x).inst = none → (s.var x).inst = none) ∧
    (∀ n s t r s', prune n s t = .ok (r, s') →
       ∀ x u u', (s.var x).inst = some u → (s'.var x).inst = some u' →
         ∀ tr, ResolvesE s' u tr ↔ ResolvesE s' u' tr) := by
  refine ⟨?_, ?_, ?_, ?_, ?_, ?_, ?_, ?_⟩
  · intro s c
    simp [St.newVar, St.var, List.getD_eq_getElem?_getD]
  · exact prune_boundIff
  · intro n s v t b s' h
    exact (occurs_boundIff n).1 s v t b s' h
  · intro n s v t s' h
    exact unify_var_bound_mono h
  · intro n s t1 t2 s' h
    exact (unify_bound_mono n).1 s t1 t2 s' h
  · intro n s ng m tp t' s' m' h
    exact (fresh_bound_mono n).1 s ng m tp t' s' m' h
  · exact analyze_bound_mono
  · exact prune_write_equiv

/-- Witness for C9 at concrete inputs: a unification binds variable 0 and
the monotonicity conjunct transports unboundness of variable 1 back. -/
theorem hask_c9_witness :
    ((consState ∅ ∅).var 1).inst = none :=
  hask_c9_instance_invariant.2.2.2.2.1 4 (consState ∅ ∅) (.tvar 0) (.tvar 1)
    ⟨[⟨some (.tvar 1), ∅⟩, ⟨none, ∅⟩], []⟩ (by decide) 1 (by decide)

/-! ## Call-time type-checked function wrapper (`type_system.py`) -/

/-- Runtime values flowing through a wrapped function (plain Python values,
tuples, and the `Undefined` marker; each argument is a distinct object, so
the `id()`-keyed environment entries are modelled as index-named entries). -/
inductive Val : Type
  | vint (n : Int)
  | vstr (sv : String)
  | vbool (b : Bool)
  | vnone
  | vtuple (vs : List Val)
  | vundef

/-- `isinstance(arg, Undefined)`. -/
def Val.isUndef : Val → Bool
  | .vundef => true
  | _ => false

/-- `typeof(obj)`: lift a runtime value into the type language, allocating a
fresh `TypeVariable` for `Undefined`, a `Tuple` operator for tuples, and a
nullary `TypeOperator` tagged with the concrete runtime type otherwise. -/
def typeof (s : St) : Val → Ty × St
  | .vundef =>
    let (v, s') := s.newVar ∅
    (.tvar v, s')
  | .vint _ =>
    let (o, s') := s.newOp (.atom (.con "int")) []
    (.tyop o, s')
  | .vstr _ =>
    let (o, s') := s.newOp (.atom (.con "str")) []
    (.tyop o, s')
  | .vbool _ =>
    let (o, s') := s.newOp (.atom (.con "bool")) []
    (.tyop o, s')
  | .vnone =>
    let (o, s') := s.newOp (.atom .unitT) []
    (.tyop o, s')
  | .vtuple vs =>
    let (ts, s') := go s vs
    let (o, s'') := s'.newOp (.atom .tupleC) ts
    (.tyop o, s'')
where go : St → List Val → List Ty × St
  | s, [] => ([], s)
  | s, v :: vs =>
    let (t, s1) := typeof s v
    let (ts, s2) := go s1 vs
    (t :: ts, s2)

/-- Lift each argument in order (the order the env dict comprehension runs). -/
def typeofList (s : St) (vs : List Val) : List Ty × St := typeof.go s vs

/-- The first `Undefined` among the supplied arguments, if any (the in-loop
`isinstance(arg, Undefined)` check returns the first one hit). -/
def firstUndef : List Val → Option Val
  | [] => none
  | v :: vs => if v.isUndef then some v else firstUndef vs

/-- Synthetic environment name for the i-th argument (Python uses `id(arg)`;
distinct argument objects get distinct keys, so any injective naming is a
faithful model). -/
def argName : Nat → String
  | 0 => "arg"
  | n + 1 => (argName n).push 'x' 

/-- The call environment: the wrapped function's declared type under a
synthetic name plus each argument's runtime type. -/
def mkCallEnv (tfType : Ty) (argTys : List Ty) : Env := fun x =>
  (("self", tfType) :: (argTys.enum.map fun it => (argName it.1, it.2))).lookup x

/-- The left-associated `App` chain `((self arg0) arg1) ...`. -/
def buildAp : Nat → Term
  | 0 => .evar "self"
  | k + 1 => .eapp (buildAp k) (.evar (argName k))

/-- A `TypedFunc` wrapper: the length of its signature component list
(`len(self.fn_args)`) and its declared type. -/
structure TypedFunc where
  fnArgs : Nat
  fnType : Ty
  deriving DecidableEq

/-- Result of a wrapped call: a returned value, or a new partially-applied
wrapper (its native closure is determined by the original native function and
the supplied prefix, so the model keeps the remaining signature length and
residual type). -/
inductive CallOut : Type
  | ret (v : Val)
  | defer (tf : TypedFunc)

/-- Steps 1–3 of `TypedFunc.__call__`: lift the arguments, build the
environment and the `App` chain, and run the analyzer. -/
def callAnalysis (n : Nat) (s : St) (tfType : Ty) (args : List Val) : Res (Ty × St) :=
  let (argTys, s1) := typeofList s args
  analyze n s1 (mkCallEnv tfType argTys) [] (buildAp args.length)

/-- `TypedFunc.__call__`: lift all arguments (the env comprehension), return
the first `Undefined` argument as-is if there is one, otherwise analyze the
application; on success either run the native function and unify its result's
runtime type against the predicted type (full application) or return a new
wrapper over the residual type (currying). -/
def typedFuncCall (n : Nat) (s : St) (tf : TypedFunc) (native : List Val → Val)
    (args : List Val) : Res (CallOut × St) :=
  let (argTys, s1) := typeofList s args
  match firstUndef args with
  | some u => .ok (.ret u, s1)
  | none =>
    match analyze n s1 (mkCallEnv tf.fnType argTys) [] (buildAp args.length) with
    | .timeout => .timeout
    | .err e => .err e
    | .ok (rt, s2) =>
      if tf.fnArgs - 1 = args.length then
        let result := native args
        let (rty, s3) := typeof s2 result
        match unify n s3 rt rty with
        | .timeout => .timeout
        | .err e => .err e
        | .ok s4 => .ok (.ret result, s4)
      else
        .ok (.defer ⟨tf.fnArgs - args.length, rt⟩, s2)

/-- Drop the final state, keeping the call outcome. -/
def outOf : Res (CallOut × St) → Res CallOut
  | .timeout => .timeout
  | .err e => .err e
  | .ok (o, _) => .ok o

/-- Initial state for the `add :: Num a => a -> a -> a` example: variable 0
carries the `Num` constraint, op 0 is `a -> a`, op 1 is `a -> (a -> a)`. -/
def addState : St :=
  let (_, s) := st0.newVar {"Num"}
  let (_, s) := s.newOp (.atom .arrow) [.tvar 0, .tvar 0]
  let (_, s) := s.newOp (.atom .arrow) [.tvar 0, .tyop 0]
  s

/-- The wrapper for `add`: three signature components, declared type op 1. -/
def addTF : TypedFunc := ⟨3, .tyop 1⟩

/-- Native implementation of `add` (integer addition). -/
def addNative : List Val → Val
  | [.vint a, .vint b] => .vint (a + b)
  | _ => .vnone

/-- Structural boolean equality on values. -/
def Val.beq : Val → Val → Bool
  | .vint a, .vint b => a == b
  | .vstr a, .vstr b => a == b
  | .vbool a, .vbool b => a == b
  | .vnone, .vnone => true
  | .vundef, .vundef => true
  | .vtuple as, .vtuple bs => go as bs
  | _, _ => false
where go : List Val → List Val → Bool
  | [], [] => true
  | a :: as, b :: bs => Val.beq a b && go as bs
  | _, _ => false

theorem sizeOf_mem_lt_vtuple {vs : List Val} {v : Val} (h : v ∈ vs) :
    sizeOf v < sizeOf (Val.vtuple vs) := by
  have h1 := List.sizeOf_lt_of_mem h
  have h2 : sizeOf (Val.vtuple vs) = 1 + sizeOf vs := by simp [Val.vtuple.sizeOf_spec]
  omega

theorem val_beq_go_iff :
    ∀ as bs, (∀ v ∈ as, ∀ b, Val.beq v b = true ↔ v = b) →
      (Val.beq.go as bs = true ↔ as = bs) := by
  intro as
  induction as with
  | nil => intro bs _; cases bs <;> simp [Val.beq.go]
  | cons a' as' ih =>
    intro bs hmem
    cases bs with
    | nil => simp [Val.beq.go]
    | cons b' bs' =>
      rw [Val.beq.go]
      rw [Bool.and_eq_true]
      rw [hmem a' (List.mem_cons_self a' as') b',
        ih bs' (fun v hv b => hmem v (List.mem_cons_of_mem _ hv) b)]
      simp

theorem val_beq_iff : ∀ N (a b : Val), sizeOf a ≤ N → (Val.beq a b = true ↔ a = b) := by
  intro N
  induction N using Nat.strong_induction_on with
  | _ N ihN =>
  intro a b hsz
  cases a <;> cases b <;> simp [Val.beq]
  case vtuple.vtuple as bs =>
    exact val_beq_go_iff as bs (fun v hv b =>
      ihN (sizeOf v) (Nat.lt_of_lt_of_le (sizeOf_mem_lt_vtuple hv) hsz) v b le_rfl)

instance : DecidableEq Val := fun a b =>
  decidable_of_iff _ (val_beq_iff (sizeOf a) a b le_rfl)

instance : DecidableEq CallOut := fun a b =>
  match a, b with
  | .ret x, .ret y =>
    if h : x = y then .isTrue (by rw [h]) else .isFalse (by intro he; cases he; exact h rfl)
  | .defer x, .defer y =>
    if h : x = y then .isTrue (by rw [h]) else .isFalse (by intro he; cases he; exact h rfl)
  | .ret _, .defer _ => .isFalse (by intro he; cases he)
  | .defer _, .ret _ => .isFalse (by intro he; cases he)

theorem typedFuncCall_err_no_native (n : Nat) (s : St) (tf : TypedFunc) (args : List Val)
    (e : TErr) (hu : firstUndef args = none)
    (hana : callAnalysis n s tf.fnType args = .err e) :
    ∀ native, typedFuncCall n s tf native args = .err e := by
  intro native
  rw [typedFuncCall]
  rcases hsp : typeofList s args with ⟨argTys, s1⟩
  rw [callAnalysis, hsp] at hana
  dsimp only at hana
  simp only [hsp, hu, hana]

theorem typedFuncCall_full_app (n : Nat) (s : St) (tf : TypedFunc) (args : List Val)
    (rt : Ty) (s2 : St) (hu : firstUndef args = none)
    (hana : callAnalysis n s tf.fnType args = .ok (rt, s2))
    (hfull : tf.fnArgs - 1 = args.length) :
    ∀ native, typedFuncCall n s tf native args =
      (match unify n (typeof s2 (native args)).2 rt (typeof s2 (native args)).1 with
       | .timeout => .timeout
       | .err e => .err e
       | .ok s4 => .ok (.ret (native args), s4)) := by
  intro native
  rw [typedFuncCall]
  rcases hsp : typeofList s args with ⟨argTys, s1⟩
  rw [callAnalysis, hsp] at hana
  dsimp only at hana
  simp only [hsp, hu, hana, if_pos hfull]

set_option maxHeartbeats 16000000 in
set_option maxRecDepth 100000 in
/-- C7: (1) when the analyzer rejects a call (and no argument is
`Undefined`), the call raises that typing error for every native
implementation — the wrapped function body is never invoked; (2) concretely,
`add :: Num a => a -> a -> a` called as `add(1, "x")` raises TypeMismatch for
every native implementation; (3) when analysis succeeds and all declared
parameters are supplied, the native function runs and its result's runtime
type is unified against the predicted result type; (4) concretely,
`add(1, 2)` returns `3`. -/
theorem hask_c7_call_time_check :
    (∀ n s tf args e, firstUndef args = none →
       callAnalysis n s tf.fnType args = .err e →
       ∀ native, typedFuncCall n s tf native args = .err e) ∧
    (∀ native, typedFuncCall 13 addState addTF native [.vint 1, .vstr "x"] =
       .err .typeMismatch) ∧
    (∀ n s tf args rt s2, firstUndef args = none →
       callAnalysis n s tf.fnType args = .ok (rt, s2) →
       tf.fnArgs - 1 = args.length →
       ∀ native, typedFuncCall n s tf native args =
         (match unify n (typeof s2 (native args)).2 rt (typeof s2 (native args)).1 with
          | .timeout => .timeout
          | .err e => .err e
          | .ok s4 => .ok (.ret (native args), s4))) ∧
    (outOf (typedFuncCall 13 addState addTF addNative [.vint 1, .vint 2]) =
       .ok (.ret (.vint 3))) := by
  refine ⟨typedFuncCall_err_no_native, ?_, typedFuncCall_full_app, ?_⟩
  · intro native
    exact typedFuncCall_err_no_native 13 addState addTF [.vint 1, .vstr "x"]
      .typeMismatch rfl (by decide) native
  · decide

/-- Witness for C7 at a concrete input. -/
theorem hask_c7_witness :
    typedFuncCall 13 addState addTF addNative [.vint 1, .vstr "x"] = .err .typeMismatch :=
  hask_c7_call_time_check.2.1 addNative

set_option maxHeartbeats 4000000 in
/-- C10: a call whose arguments include an `Undefined` value returns the
first such argument immediately: the result only reflects the argument
liftings (the env comprehension), holds for every native implementation and
even with zero analyzer fuel — no type analysis runs and the native function
is not invoked, although in the concrete instance the other argument (`"x"`
against `add`'s declared type) would fail to type-check. -/
theorem hask_c10_undefined_short_circuit :
    (∀ n s tf native args u, firstUndef args = some u →
       typedFuncCall n s tf native args = .ok (.ret u, (typeofList s args).2)) ∧
    (∀ native, outOf (typedFuncCall 0 addState addTF native [.vstr "x", .vundef]) =
       .ok (.ret .vundef)) := by
  constructor
  · intro n s tf native args u hu
    rw [typedFuncCall]
    rcases hsp : typeofList s args with ⟨argTys, s1⟩
    simp only [hsp, hu]
  · intro native
    simp [outOf, typedFuncCall, typeofList, typeof, typeof.go, firstUndef, Val.isUndef,
      addState, addTF, St.newVar, St.newOp, st0]

/-- Witness for C10 at a concrete input. -/
theorem hask_c10_witness :
    typedFuncCall 0 addState addTF addNative [.vstr "x", .vundef] =
      .ok (.ret .vundef, (typeofList addState [.vstr "x", .vundef]).2) :=
  hask_c10_undefined_short_circuit.1 0 addState addTF addNative
    [.vstr "x", .vundef] .vundef rfl

/-! ### Typeclass registry (type_system.py: TypeMeta.__init__, build_instance)

A typeclass is identified by its index into the registry.  `deps tc` is the
typeclass's `__dependencies__` list (`self.mro()[1:-2]`, the ancestor
typeclasses in MRO order, excluding itself, `Typeclass` and `object`);
`insts tc` is its `__instances__` dictionary, an association list from key
identities (`Typeclass.get_id(cls)`, here already a `Nat`) to the stored
method table. -/

abbrev Attrs := List (String × String)

structure Registry where
  deps : List (List Nat)
  insts : List (List (Nat × Attrs))
deriving DecidableEq

def hasInst (r : Registry) (tc key : Nat) : Bool :=
  ((r.insts.getD tc []).lookup key).isSome

def instInsert (l : List (Nat × Attrs)) (key : Nat) (a : Attrs) :
    List (Nat × Attrs) :=
  match l with
  | [] => [(key, a)]
  | (k, b) :: t => if k = key then (key, a) :: t else (k, b) :: instInsert t key a

def build_instance (r : Registry) (tc key : Nat) (attrs : Attrs) :
    Except Nat Registry :=
  match (r.deps.getD tc []).find? (fun dep => !(hasInst r dep key)) with
  | some bad => .error bad
  | none =>
      .ok ⟨r.deps, r.insts.set tc (instInsert (r.insts.getD tc []) key attrs)⟩

theorem find?_first {α : Type} (p : α → Bool) (l : List α) (a : α)
    (h : l.find? p = some a) :
    ∃ pre post, l = pre ++ a :: post ∧ (∀ x ∈ pre, p x = false) ∧ p a = true := by
  induction l with
  | nil => exact absurd h (by simp)
  | cons x t ih =>
      rw [List.find?] at h
      rcases hp : p x with _ | _
      · rw [hp] at h
        obtain ⟨pre, post, rfl, hpre, hpa⟩ := ih h
        exact ⟨x :: pre, post, rfl, by
          intro y hy
          rcases List.mem_cons.1 hy with rfl | hy
          · exact hp
          · exact hpre y hy, hpa⟩
      · rw [hp] at h
        obtain rfl : x = a := by injection h
        exact ⟨[], t, rfl, by simp, hp⟩

theorem instInsert_lookup (l : List (Nat × Attrs)) (key : Nat) (a : Attrs) :
    (instInsert l key a).lookup key = some a := by
  induction l with
  | nil => simp [instInsert, List.lookup]
  | cons kb t ih =>
      rcases kb with ⟨k, b⟩
      by_cases hk : k = key
      · simp [instInsert, hk, List.lookup]
      · have hk2 : ¬ key = k := fun h2 => hk h2.symm
        have hb : (key == k) = false := by simp [hk2]
        simp [instInsert, hk, List.lookup, hb, ih]

def eqAttrs : Attrs := [("eq", "eq_impl"), ("ne", "ne_impl")]

def ordAttrs : Attrs := [("lt", "lt_impl")]

/-- Registry with two typeclasses: `Eq` (id 0, no dependencies) and `Ord`
(id 1, MRO dependencies `[Eq]`), no instances registered yet. -/
def eqOrdReg : Registry := ⟨[[], [0]], [[], []]⟩

/-- C8: (1) if `build_instance` fails with dependency `bad`, then `bad` lacks
an instance for the key and is the first such typeclass in the dependency
list (every earlier dependency has an instance); (2) if it succeeds, every
dependency has an instance for the key, the method table is stored under the
typeclass keyed by the type's identity, and the instance dictionaries of all
other typeclasses are untouched; (3) registering `Ord` before `Eq` fails
naming `Eq`; (4) registering `Eq` and then `Ord` succeeds and stores both
method tables. -/
theorem hask_c8_dependency_order :
    (∀ r tc key attrs bad, build_instance r tc key attrs = .error bad →
       hasInst r bad key = false ∧
       ∃ pre post, r.deps.getD tc [] = pre ++ bad :: post ∧
         ∀ d ∈ pre, hasInst r d key = true) ∧
    (∀ r tc key attrs r', tc < r.insts.length →
       build_instance r tc key attrs = .ok r' →
       (∀ d ∈ r.deps.getD tc [], hasInst r d key = true) ∧
       (r'.insts.getD tc []).lookup key = some attrs ∧
       r'.deps = r.deps ∧
       ∀ tc2, tc2 ≠ tc → r'.insts.getD tc2 [] = r.insts.getD tc2 []) ∧
    (build_instance eqOrdReg 1 7 ordAttrs = .error 0) ∧
    (∃ r1 r2, build_instance eqOrdReg 0 7 eqAttrs = .ok r1 ∧
       build_instance r1 1 7 ordAttrs = .ok r2 ∧
       (r2.insts.getD 0 []).lookup 7 = some eqAttrs ∧
       (r2.insts.getD 1 []).lookup 7 = some ordAttrs) := by
  refine ⟨?_, ?_, rfl, ?_⟩
  · intro r tc key attrs bad h
    rw [build_instance] at h
    rcases hf : (r.deps.getD tc []).find? (fun dep => !(hasInst r dep key)) with
      _ | bad2
    · rw [hf] at h
      exact Except.noConfusion h
    · rw [hf] at h
      obtain rfl : bad2 = bad := by injection h
      obtain ⟨pre, post, heq, hpre, hbad⟩ := find?_first _ _ _ hf
      refine ⟨by simpa using hbad, pre, post, heq, ?_⟩
      intro d hd
      have := hpre d hd
      simpa using this
  · intro r tc key attrs r' hlt h
    rw [build_instance] at h
    rcases hf : (r.deps.getD tc []).find? (fun dep => !(hasInst r dep key)) with
      _ | bad
    · rw [hf] at h
      obtain rfl : (⟨r.deps,
          r.insts.set tc (instInsert (r.insts.getD tc []) key attrs)⟩ :
          Registry) = r' := by injection h
      refine ⟨?_, ?_, rfl, ?_⟩
      · intro d hd
        have := List.find?_eq_none.1 hf d hd
        simpa using this
      · simp only [List.getD_eq_getElem?_getD,
          List.getElem?_set_eq_of_lt _ hlt, Option.getD_some]
        exact instInsert_lookup _ _ _
      · intro tc2 htc
        simp [List.getD_eq_getElem?_getD, List.getElem?_set_ne (Ne.symm htc)]
    · rw [hf] at h
      exact Except.noConfusion h
  · exact ⟨_, _, rfl, rfl, rfl, rfl⟩

/-- Witness for C8 at a concrete input. -/
theorem hask_c8_witness :
    ((1 : Nat) < (2 : Nat)) ∧
      ((⟨[[], [0]], [[(7, eqAttrs)], [(7, ordAttrs)]]⟩ : Registry).insts.getD 1
        []).lookup 7 = some ordAttrs :=
  ⟨by decide,
    (hask_c8_dependency_order.2.1 ⟨[[], [0]], [[(7, eqAttrs)], []]⟩ 1 7 ordAttrs
      ⟨[[], [0]], [[(7, eqAttrs)], [(7, ordAttrs)]]⟩ (by decide) rfl).2.1⟩

end HaskCore
